import Mathlib

/-!
Verification of the readable-URL rewriting engine of
`openlibrary/core/processors/readableurls.py`.

Paths and record fields are modelled as `List Char` (Python 3 `str`).
The embedding restricts the regex classes `\w` and `\d` to their ASCII
meaning, and models `urllib.parse.urlparse`/`geturl` for scheme-less,
netloc-less URLs, treating `;` parameters as part of the path.
-/

set_option linter.unusedVariables false

abbrev Str := List Char

/-- Character list of a string literal. -/
def lit (s : String) : Str := s.toList

/-- Splits at the first occurrence of `sep`: `some` means the separator was
found and the second component is everything after it. -/
def splitFirst (sep : Char) : Str → Str × Option Str
  | [] => ([], none)
  | c :: cs =>
    if c = sep then ([], some cs)
    else
      let r := splitFirst sep cs
      (c :: r.1, r.2)

/-- Python `str.split(sep)` for a one-character separator. -/
def splitOnChar (sep : Char) : Str → List Str
  | [] => [[]]
  | c :: cs =>
    if c = sep then [] :: splitOnChar sep cs
    else
      match splitOnChar sep cs with
      | [] => [[c]]
      | t :: ts => (c :: t) :: ts

/-- `sep.join(parts)`. -/
def joinSep (sep : Char) : List Str → Str
  | [] => []
  | [x] => x
  | x :: xs => x ++ sep :: joinSep sep xs

/-- Python `key.split("/")[-1]`. -/
def lastSeg (s : Str) : Str := (splitOnChar '/' s).getLastD []

/-- Python `s.rstrip('/')`. -/
def rstripSlash (s : Str) : Str := (s.reverse.dropWhile (· = '/')).reverse

/-- Splits at the last occurrence of `sep`: `some (a, b)` with
`s = a ++ sep :: b` and `sep` not occurring in `b`. -/
def breakLast (sep : Char) (s : Str) : Option (Str × Str) :=
  match splitFirst sep s.reverse with
  | (_, none) => none
  | (rb, some ra) => some (ra.reverse, rb.reverse)

/-- Python `os.path.splitext`: splits off the extension at the last dot of
the basename, unless every character before that dot in the basename is
itself a dot. -/
def splitext (p : Str) : Str × Str :=
  let db : Str × Str :=
    match breakLast '/' p with
    | some ab => (ab.1 ++ ['/'], ab.2)
    | none => ([], p)
  match breakLast '.' db.2 with
  | none => (p, [])
  | some se =>
    if se.1.any (· ≠ '.') then (db.1 ++ se.1, '.' :: se.2)
    else (p, [])

/-- Python `path.endswith((".json", ".rdf", ".yml"))`. -/
def endsWithExt (p : Str) : Bool :=
  (lit ".json").isSuffixOf p || (lit ".rdf").isSuffixOf p || (lit ".yml").isSuffixOf p

/-- UTF-8 encoding of a character, as byte values. -/
def utf8Bytes (c : Char) : List Nat :=
  let n := c.toNat
  if n < 128 then [n]
  else if n < 2048 then [192 + n / 64, 128 + n % 64]
  else if n < 65536 then [224 + n / 4096, 128 + n / 64 % 64, 128 + n % 64]
  else [240 + n / 262144, 128 + n / 4096 % 64, 128 + n / 64 % 64, 128 + n % 64]

/-- Uppercase hexadecimal digit, as used by `urllib.parse.quote`. -/
def hexDigit : Nat → Char
  | 0 => '0' | 1 => '1' | 2 => '2' | 3 => '3' | 4 => '4' | 5 => '5' | 6 => '6' | 7 => '7'
  | 8 => '8' | 9 => '9' | 10 => 'A' | 11 => 'B' | 12 => 'C' | 13 => 'D' | 14 => 'E' | _ => 'F'

/-- Percent-encoding of one byte. -/
def pctByte (b : Nat) : Str := ['%', hexDigit (b / 16), hexDigit (b % 16)]

/-- The characters `urllib.parse.quote` never escapes (RFC 3986 unreserved). -/
def isSafeChar (c : Char) : Bool :=
  c.isAlphanum || c = '_' || c = '.' || c = '-' || c = '~'

/-- `urllib.parse.quote(·, safe='')` on one character.  A non-ASCII character
is encoded byte by byte; an unreserved ASCII character is kept. -/
def quoteChar (c : Char) : Str :=
  if isSafeChar c then [c] else ((utf8Bytes c).map pctByte).flatten

/-- `urllib.parse.quote(s, safe='')`: every character of a path segment. -/
def quoteSeg (s : Str) : Str := (s.map quoteChar).flatten

/-- `urllib.parse.quote_plus` on one character: space becomes `+`. -/
def quotePlusChar (c : Char) : Str :=
  if c = ' ' then ['+'] else quoteChar c

/-- `urllib.parse.quote_plus(s)`. -/
def quotePlus (s : Str) : Str := (s.map quotePlusChar).flatten

/-- `urllib.parse.quote(s)` with the default `safe='/'`: slashes are kept,
every other character is quoted as in `quoteSeg`. -/
def quoteDefault (s : Str) : Str :=
  (s.map fun c => if c = '/' then ['/'] else quoteChar c).flatten

/-- `encode_url_path`: percent-encode each `/`-separated segment of the path
component, leaving the query and fragment untouched
(`urllib.parse.urlparse` splits the fragment at the first `#`, then the
query at the first `?`). -/
def encodeUrlPath (s : Str) : Str :=
  let f := splitFirst '#' s
  let q := splitFirst '?' f.1
  joinSep '/' ((splitOnChar '/' q.1).map quoteSeg)
    ++ (match q.2 with | some qs => '?' :: qs | none => [])
    ++ (match f.2 with | some fr => '#' :: fr | none => [])

/-- ASCII whitespace, for Python `str.strip()`. -/
def isPySpace (c : Char) : Bool :=
  c = ' ' || c = '\t' || c = '\n' || c = '\r' || c.toNat = 11 || c.toNat = 12

/-- Python `s.strip()`. -/
def stripWs (s : Str) : Str :=
  ((s.dropWhile isPySpace).reverse.dropWhile isPySpace).reverse

/-- Modelled from the spec: `openlibrary.core.helpers.urlsafe` is not among
the sources; the spec describes the slug as the title with whitespace made
URL-safe, and its end-to-end example turns the space of `"Вас ил"` into an
underscore while leaving the remaining characters for percent-encoding. -/
def urlsafe (s : Str) : Str := s.map fun c => if isPySpace c then '_' else c

/-- ASCII reading of the regex class `\w`. -/
def isWordChar (c : Char) : Bool := c.isAlphanum || c = '_'

/-- The regex class `[a-zA-Z0-9_.-]` of the `ia:` pattern. -/
def isIAChar (c : Char) : Bool := c.isAlphanum || c = '_' || c = '.' || c = '-'

/-- The regex class `[/\w\-]` of the list pattern. -/
def isListChar (c : Char) : Bool := c = '/' || isWordChar c || c = '-'

/-- A record of the object store: `key`, `type.key`, and its string fields. -/
structure Thing where
  key : Str
  ty : Str
  fields : List (Str × Str)
deriving DecidableEq

/-- `thing.get(name)`. -/
def Thing.get (t : Thing) (name : Str) : Option Str :=
  (t.fields.find? fun kv => kv.1 = name).map Prod.snd

/-- The object store: `site.get(key)` is an association-list lookup. -/
structure Site where
  objects : List (Str × Thing)
deriving DecidableEq

/-- `site.get(key)`. -/
def siteGet (site : Site) (key : Str) : Option Thing :=
  (site.objects.find? fun kv => kv.1 = key).map Prod.snd

/-- Result of `match(path)` inside `get_readable_path`: the rule's type,
property and default title, and the decomposition prefix/middle/suffix. -/
structure MatchResult where
  ty : Str
  prop : Str
  deflt : Str
  pre : Str
  mid : Str
  suf : Str
deriving DecidableEq

/-- The pair returned by `get_readable_path`, with the `web.ctx.exclude`
side effect made explicit. -/
structure RPath where
  real : Str
  readable : Str
  exclude : Bool
deriving DecidableEq

/-- Matches `^/\w+/OL\d+<letter>` (the edition, author and work patterns,
for `letter` one of `M`, `A`, `W`).  Returns the matched text and the rest
of the path.  The greedy runs need no backtracking: `/` is not a word
character and the final letter is not a digit. -/
def matchPatOLID (letter : Char) (p : Str) : Option (Str × Str) :=
  match p with
  | '/' :: rest =>
    match rest.dropWhile isWordChar with
    | '/' :: 'O' :: 'L' :: r2 =>
      match r2.dropWhile Char.isDigit with
      | c :: r4 =>
        if rest.takeWhile isWordChar = [] then none
        else if r2.takeWhile Char.isDigit = [] then none
        else if c = letter then
          some ('/' :: (rest.takeWhile isWordChar ++
            '/' :: 'O' :: 'L' :: (r2.takeWhile Char.isDigit ++ [letter])), r4)
        else none
      | [] => none
    | _ => none
  | _ => none

/-- Matches `^/\w+/ia:[a-zA-Z0-9_.-]+`. -/
def matchPatIA (p : Str) : Option (Str × Str) :=
  match p with
  | '/' :: rest =>
    match rest.dropWhile isWordChar with
    | '/' :: 'i' :: 'a' :: ':' :: r2 =>
      if rest.takeWhile isWordChar = [] then none
      else if r2.takeWhile isIAChar = [] then none
      else
        some ('/' :: (rest.takeWhile isWordChar ++
          '/' :: 'i' :: 'a' :: ':' :: r2.takeWhile isIAChar), r2.dropWhile isIAChar)
    | _ => none
  | _ => none

/-- Parses a leading `/OL\d+L`; the digit run is greedy and needs no
backtracking since `L` is not a digit. -/
def parseOLL : Str → Option (Str × Str)
  | '/' :: 'O' :: 'L' :: r =>
    match r.dropWhile Char.isDigit with
    | 'L' :: r3 =>
      if r.takeWhile Char.isDigit = [] then none
      else some ('/' :: 'O' :: 'L' :: (r.takeWhile Char.isDigit ++ ['L']), r3)
    | _ => none
  | _ => none

/-- Backtracking search for the greedy `[/\w\-]+` of the list pattern: the
class run of length `j` is tried for `j` from the maximum down to 1, the
first `j` whose remainder starts with `/OL\d+L` winning.  Returns the class
run, the `/OL\d+L` part and the remainder. -/
def searchOLL (rest : Str) : Nat → Option (Str × Str × Str)
  | 0 => none
  | j + 1 =>
    match parseOLL (rest.drop (j + 1)) with
    | some pr => some (rest.take (j + 1), pr.1, pr.2)
    | none => searchOLL rest j

/-- Matches `^/[/\w\-]+/OL\d+L` (the list pattern), with the greedy class
run resolved by `searchOLL`. -/
def matchPat5 (p : Str) : Option (Str × Str) :=
  match p with
  | '/' :: rest =>
    match searchOLL rest (rest.takeWhile isListChar).length with
    | some r => some ('/' :: (r.1 ++ r.2.1), r.2.2)
    | none => none
  | _ => none

/-- Python `extra.split("/", 2)`: at most two splits, three parts. -/
def split2 (s : Str) : List Str :=
  let a := splitFirst '/' s
  match a.2 with
  | none => [a.1]
  | some r1 =>
    let b := splitFirst '/' r1
    match b.2 with
    | none => [a.1, b.1]
    | some r3 => [a.1, b.1, r3]

/-- Builds the `MatchResult` from a raw pattern match, following the body of
`match` in `get_readable_path`: `extra` is split on `/` into at most three
tokens, `middle` is token 1, `suffix` is token 2 re-prefixed with `/` when
non-empty. -/
def mkResult (ty prop deflt : Str) (m : Str × Str) : MatchResult :=
  let toks := split2 m.2
  let suf0 := toks.getD 2 []
  ⟨ty, prop, deflt, m.1, toks.getD 1 [], if suf0 = [] then [] else '/' :: suf0⟩

/-- The `match` helper of `get_readable_path` over the processor's five
patterns, first match winning, in source order: edition, `ia:`-edition,
author, work, list. -/
def matchPath (p : Str) : Option MatchResult :=
  match matchPatOLID 'M' p with
  | some m => some (mkResult (lit "/type/edition") (lit "title") (lit "untitled") m)
  | none =>
  match matchPatIA p with
  | some m => some (mkResult (lit "/type/edition") (lit "title") (lit "untitled") m)
  | none =>
  match matchPatOLID 'A' p with
  | some m => some (mkResult (lit "/type/author") (lit "name") (lit "noname") m)
  | none =>
  match matchPatOLID 'W' p with
  | some m => some (mkResult (lit "/type/work") (lit "title") (lit "untitled") m)
  | none =>
  match matchPat5 p with
  | some m => some (mkResult (lit "/type/list") (lit "name") (lit "unnamed") m)
  | none => none

/-- `_get_object(site, key)`: direct lookup, then the legacy-prefix
rewrite (`/a/`, `/b/`, `/user/`, each tested against the current key), then
the basename retries (`ia:`, `OL…W`, `OL…M`, `OL…A`), each attempted only
while the object is still missing. -/
def getObject (site : Site) (key : Str) : Option Thing :=
  let s0 : Str × Option Thing := (key, siteGet site key)
  let s1 :=
    if s0.2 = none ∧ (lit "/a/").isPrefixOf s0.1 then
      (lit "/authors/" ++ s0.1.drop 3, siteGet site (lit "/authors/" ++ s0.1.drop 3))
    else s0
  let s2 :=
    if s1.2 = none ∧ (lit "/b/").isPrefixOf s1.1 then
      (lit "/books/" ++ s1.1.drop 3, siteGet site (lit "/books/" ++ s1.1.drop 3))
    else s1
  let s3 :=
    if s2.2 = none ∧ (lit "/user/").isPrefixOf s2.1 then
      (lit "/people/" ++ s2.1.drop 6, siteGet site (lit "/people/" ++ s2.1.drop 6))
    else s2
  let bn := lastSeg s3.1
  let o4 :=
    if s3.2 = none ∧ (lit "ia:").isPrefixOf bn then siteGet site (lit "/books/" ++ bn)
    else s3.2
  let o5 :=
    if o4 = none ∧ (lit "OL").isPrefixOf bn ∧ bn.getLast? = some 'W' then
      siteGet site (lit "/works/" ++ bn)
    else o4
  let o6 :=
    if o5 = none ∧ (lit "OL").isPrefixOf bn ∧ bn.getLast? = some 'M' then
      siteGet site (lit "/books/" ++ bn)
    else o5
  let o7 :=
    if o6 = none ∧ (lit "OL").isPrefixOf bn ∧ bn.getLast? = some 'A' then
      siteGet site (lit "/authors/" ++ bn)
    else o6
  o7

/-- `thing.get(_property) or default_title`: `None` and the empty string
both fall back to the default. -/
def titleOf (t : Thing) (prop deflt : Str) : Str :=
  match t.get prop with
  | some s => if s = [] then deflt else s
  | none => deflt

/-- The slug: `quote_plus(h.urlsafe(title.strip()))`. -/
def slugOf (t : Thing) (prop deflt : Str) : Str :=
  quotePlus (urlsafe (stripWs (titleOf t prop deflt)))

/-- `get_readable_path(site, path, patterns, encoding)`, with the exclusion
collaborator `excl` (`is_exclusion`) passed explicitly and the
`web.ctx.exclude` side effect returned in the result. -/
def getReadablePath (site : Site) (excl : Option Thing → Bool) (path : Str)
    (encoding : Option Str) : RPath :=
  match matchPath path with
  | none => ⟨path, path, false⟩
  | some r =>
    if encoding.isSome || endsWithExt path then
      let ke := splitext path
      let path2 :=
        match getObject site ke.1 with
        | some t => t.key ++ ke.2
        | none => path
      ⟨path2, path2, false⟩
    else
      match getObject site r.pre with
      | some t =>
        let mid2 := if t.ty = r.ty then '/' :: slugOf t r.prop r.deflt else []
        ⟨t.key ++ r.suf, t.key ++ mid2 ++ r.suf, excl (some t)⟩
      | none => ⟨r.pre ++ r.suf, r.pre ++ r.suf, excl none⟩

/-- An incoming request: `web.ctx.path`, `web.ctx.method`, `web.ctx.query`
and `web.ctx.encoding`. -/
structure Req where
  path : Str
  method : Str
  query : Str
  encoding : Option Str
deriving DecidableEq

/-- The processor's possible outcomes: the legacy `web.seeother` redirects,
the readable-path `web.redirect`, the 404 override forced by the exclusion
flag, and normal delegation returning the wrapped handler's output with the
installed real and readable paths. -/
inductive POut where
  | seeother (target : Str)
  | redirect (target : Str)
  | notFound (path : Str)
  | ok (out : Str) (realPath : Str) (readablePath : Str)
deriving DecidableEq

/-- The readable path of the second (authoritative) `get_readable_path`
call, before trailing-slash stripping and encoding. -/
def procReadableRaw (site : Site) (excl : Option Thing → Bool) (req : Req) : RPath :=
  getReadablePath site excl (rstripSlash req.path) req.encoding

/-- `if readable_path.endswith('/'): readable_path = readable_path.rstrip('/')`. -/
def stripTrail (s : Str) : Str :=
  if s.getLast? = some '/' then rstripSlash s else s

/-- The readable path as the processor compares it against the request
path: stripped of trailing slashes and passed through `encode_url_path`. -/
def procReadable (site : Site) (excl : Option Thing → Bool) (req : Req) : Str :=
  encodeUrlPath (stripTrail (procReadableRaw site excl req).readable)

/-- The real path the processor installs: `encode_url_path(real_path)`. -/
def procReal (site : Site) (excl : Option Thing → Bool) (req : Req) : Str :=
  encodeUrlPath (procReadableRaw site excl req).real

/-- `ReadableUrlProcessor.__call__`: the `/l/` and `/user/` shortcuts, the
duplicated `get_readable_path` call on the raw path (whose only surviving
effect is its exclusion flag), the authoritative call on the
slash-normalized path, the redirect decision against the raw request path,
and the post-handler exclusion override. -/
def processor (site : Site) (excl : Option Thing → Bool) (req : Req) (out : Str) : POut :=
  if (lit "/l/").isPrefixOf req.path then
    POut.seeother (lit "/languages/" ++ req.path.drop 3)
  else if (lit "/user/").isPrefixOf req.path ∧ siteGet site req.path = none then
    POut.seeother (lit "/people/" ++ req.path.drop 6)
  else
    let r1 := getReadablePath site excl req.path req.encoding
    let r2 := procReadableRaw site excl req
    let readable := encodeUrlPath (stripTrail r2.readable)
    let real := encodeUrlPath r2.real
    if readable ≠ req.path ∧ readable ≠ quoteDefault req.path ∧ req.method = lit "GET" then
      POut.redirect (readable ++ req.query)
    else if r1.exclude || r2.exclude then
      POut.notFound real
    else
      POut.ok out real readable

/-! ### List helper lemmas -/

theorem takeWhile_append_all {q : Char → Bool} {a b : Str} (h : ∀ x ∈ a, q x = true) :
    (a ++ b).takeWhile q = a ++ b.takeWhile q := by
  induction a with
  | nil => simp
  | cons c cs ih =>
    simp only [List.cons_append, List.takeWhile_cons, h c (by simp)]
    simp [ih fun x hx => h x (by simp [hx])]

theorem dropWhile_append_all {q : Char → Bool} {a b : Str} (h : ∀ x ∈ a, q x = true) :
    (a ++ b).dropWhile q = b.dropWhile q := by
  induction a with
  | nil => simp
  | cons c cs ih =>
    simp only [List.cons_append, List.dropWhile_cons, h c (by simp)]
    simp [ih fun x hx => h x (by simp [hx])]

theorem takeWhile_append_stop {q : Char → Bool} {a b : Str} (h : a.dropWhile q ≠ []) :
    (a ++ b).takeWhile q = a.takeWhile q := by
  induction a with
  | nil => simp at h
  | cons c cs ih =>
    by_cases hc : q c
    · simp only [List.dropWhile_cons, hc, if_true] at h
      simp [List.takeWhile_cons, hc, ih h]
    · simp [List.takeWhile_cons, hc]

theorem dropWhile_append_stop {q : Char → Bool} {a b : Str} (h : a.dropWhile q ≠ []) :
    (a ++ b).dropWhile q = a.dropWhile q ++ b := by
  induction a with
  | nil => simp at h
  | cons c cs ih =>
    by_cases hc : q c
    · simp only [List.dropWhile_cons, hc, if_true] at h ⊢
      simp only [List.cons_append, List.dropWhile_cons, hc, if_true]
      exact ih h
    · simp [List.dropWhile_cons, hc]

theorem splitFirst_not_mem {sep : Char} {s : Str} (h : sep ∉ s) :
    splitFirst sep s = (s, none) := by
  induction s with
  | nil => rfl
  | cons c cs ih =>
    have hc : c ≠ sep := fun hcc => h (by simp [hcc])
    simp [splitFirst, hc, ih fun hm => h (by simp [hm])]

theorem splitFirst_append {sep : Char} {a b : Str} (h : sep ∉ a) :
    splitFirst sep (a ++ sep :: b) = (a, some b) := by
  induction a with
  | nil => simp [splitFirst]
  | cons c cs ih =>
    have hc : c ≠ sep := fun hcc => h (by simp [hcc])
    simp [splitFirst, hc, ih fun hm => h (by simp [hm])]

theorem splitFirst_eq_none {sep : Char} {s a : Str} (h : splitFirst sep s = (a, none)) :
    a = s ∧ sep ∉ s := by
  induction s generalizing a with
  | nil =>
    simp only [splitFirst, Prod.mk.injEq] at h
    simp [h.1.symm]
  | cons c cs ih =>
    by_cases hc : c = sep
    · simp [splitFirst, hc] at h
    · rcases hcs : splitFirst sep cs with ⟨a1, o⟩
      simp only [splitFirst, hc, if_false, hcs, Prod.mk.injEq] at h
      obtain ⟨ha, ho⟩ := h
      obtain ⟨ha1, hm⟩ := ih (by rw [hcs, ho])
      subst ha1
      refine ⟨ha.symm, ?_⟩
      simp only [List.mem_cons, not_or]
      exact ⟨fun hcc => hc hcc.symm, hm⟩

theorem splitFirst_eq_some {sep : Char} {s a b : Str} (h : splitFirst sep s = (a, some b)) :
    s = a ++ sep :: b ∧ sep ∉ a := by
  induction s generalizing a with
  | nil => simp [splitFirst] at h
  | cons c cs ih =>
    by_cases hc : c = sep
    · simp only [splitFirst, hc, if_true, Prod.mk.injEq, Option.some.injEq] at h
      obtain ⟨ha, hb⟩ := h
      subst hc
      constructor
      · rw [← ha, ← hb]; rfl
      · rw [← ha]; simp
    · rcases hcs : splitFirst sep cs with ⟨a1, o⟩
      simp only [splitFirst, hc, if_false, hcs, Prod.mk.injEq] at h
      obtain ⟨ha, ho⟩ := h
      obtain ⟨hs, hm⟩ := ih (by rw [hcs, ho])
      subst hs
      refine ⟨by rw [← ha]; simp, ?_⟩
      rw [← ha]
      simp only [List.mem_cons, not_or]
      exact ⟨fun hcc => hc hcc.symm, hm⟩

/-! ### Matcher inversion lemmas -/

theorem matchPatOLID_eq {letter : Char} {p a b : Str}
    (h : matchPatOLID letter p = some (a, b)) : p = a ++ b := by
  unfold matchPatOLID at h
  split at h
  next rest =>
    split at h
    next r2 hdw =>
      split at h
      next c r4 hdd =>
        split at h
        next => exact absurd h (by simp)
        next hw =>
          split at h
          next => exact absurd h (by simp)
          next hds =>
            split at h
            next hc =>
              simp only [Option.some.injEq, Prod.mk.injEq] at h
              obtain ⟨ha, hb⟩ := h
              subst hc hb
              rw [← ha]
              have h1 : rest.takeWhile isWordChar ++ ('/' :: 'O' :: 'L' :: r2) = rest := by
                rw [← hdw, List.takeWhile_append_dropWhile]
              have h2 : r2.takeWhile Char.isDigit ++ (c :: r4) = r2 := by
                rw [← hdd, List.takeWhile_append_dropWhile]
              have h3 : ('/' :: (rest.takeWhile isWordChar ++
                  '/' :: 'O' :: 'L' :: (r2.takeWhile Char.isDigit ++ [c]))) ++ r4 =
                  '/' :: (rest.takeWhile isWordChar ++
                  '/' :: 'O' :: 'L' :: (r2.takeWhile Char.isDigit ++ (c :: r4))) := by
                simp
              rw [h3, h2, h1]
            next => exact absurd h (by simp)
      next => exact absurd h (by simp)
    next h1 h2 => exact absurd h (by simp)
  next h1 h2 => exact absurd h (by simp)

theorem matchPatIA_eq {p a b : Str}
    (h : matchPatIA p = some (a, b)) : p = a ++ b := by
  unfold matchPatIA at h
  split at h
  next rest =>
    split at h
    next r2 hdw =>
      split at h
      next => exact absurd h (by simp)
      next hw =>
        split at h
        next => exact absurd h (by simp)
        next hcls =>
          simp only [Option.some.injEq, Prod.mk.injEq] at h
          obtain ⟨ha, hb⟩ := h
          subst hb
          rw [← ha]
          have h1 : rest.takeWhile isWordChar ++ ('/' :: 'i' :: 'a' :: ':' :: r2) = rest := by
            rw [← hdw, List.takeWhile_append_dropWhile]
          have h2 : r2.takeWhile isIAChar ++ r2.dropWhile isIAChar = r2 :=
            List.takeWhile_append_dropWhile ..
          have h3 : ('/' :: (rest.takeWhile isWordChar ++
              '/' :: 'i' :: 'a' :: ':' :: r2.takeWhile isIAChar)) ++ r2.dropWhile isIAChar =
              '/' :: (rest.takeWhile isWordChar ++
              '/' :: 'i' :: 'a' :: ':' :: (r2.takeWhile isIAChar ++ r2.dropWhile isIAChar)) := by
            simp
          rw [h3, h2, h1]
    next h1 h2 => exact absurd h (by simp)
  next h1 h2 => exact absurd h (by simp)

theorem parseOLL_eq {x a b : Str} (h : parseOLL x = some (a, b)) : x = a ++ b := by
  unfold parseOLL at h
  split at h
  next r =>
    split at h
    next r3 hdd =>
      split at h
      next => exact absurd h (by simp)
      next hds =>
        simp only [Option.some.injEq, Prod.mk.injEq] at h
        obtain ⟨ha, hb⟩ := h
        subst hb
        rw [← ha]
        have h2 : r.takeWhile Char.isDigit ++ ('L' :: r3) = r := by
          rw [← hdd, List.takeWhile_append_dropWhile]
        simp only [List.cons_append, List.cons.injEq, true_and, List.append_assoc,
          List.singleton_append, List.nil_append]
        exact h2.symm
    next => exact absurd h (by simp)
  next h1 => exact absurd h (by simp)

theorem searchOLL_inv {rest : Str} {n : Nat} {run oll rem : Str}
    (h : searchOLL rest n = some (run, oll, rem)) :
    ∃ j, 1 ≤ j ∧ j ≤ n ∧ run = rest.take j ∧ parseOLL (rest.drop j) = some (oll, rem) ∧
      ∀ i, j < i → i ≤ n → parseOLL (rest.drop i) = none := by
  induction n with
  | zero => simp [searchOLL] at h
  | succ j ih =>
    unfold searchOLL at h
    split at h
    next pr hp =>
      simp only [Option.some.injEq, Prod.mk.injEq] at h
      obtain ⟨h1, h2, h3⟩ := h
      refine ⟨j + 1, by omega, le_refl _, h1.symm, by
        rw [hp]; exact congrArg some (Prod.ext h2 h3), ?_⟩
      intro i hi1 hi2
      omega
    next hp =>
      obtain ⟨jj, hj1, hj2, hrun, hpar, hfail⟩ := ih h
      refine ⟨jj, hj1, by omega, hrun, hpar, ?_⟩
      intro i hi1 hi2
      rcases Nat.lt_or_ge i (j + 1) with hlt | hge
      · exact hfail i hi1 (by omega)
      · have hieq : i = j + 1 := by omega
        subst hieq
        exact hp

theorem searchOLL_none {rest : Str} {n : Nat}
    (h : ∀ i, 1 ≤ i → i ≤ n → parseOLL (rest.drop i) = none) :
    searchOLL rest n = none := by
  induction n with
  | zero => rfl
  | succ j ih =>
    unfold searchOLL
    rw [h (j + 1) (by omega) (le_refl _)]
    exact ih fun i h1 h2 => h i h1 (by omega)

theorem searchOLL_found {rest : Str} {n j : Nat} {pr : Str × Str}
    (hj1 : 1 ≤ j) (hjn : j ≤ n)
    (hp : parseOLL (rest.drop j) = some pr)
    (hfail : ∀ i, j < i → i ≤ n → parseOLL (rest.drop i) = none) :
    searchOLL rest n = some (rest.take j, pr.1, pr.2) := by
  induction n with
  | zero => omega
  | succ m ih =>
    unfold searchOLL
    by_cases hc : j = m + 1
    · subst hc
      rw [hp]
    · rw [hfail (m + 1) (by omega) (le_refl _)]
      exact ih (by omega) fun i hi1 hi2 => hfail i hi1 (by omega)

theorem matchPat5_eq {p a b : Str} (h : matchPat5 p = some (a, b)) : p = a ++ b := by
  unfold matchPat5 at h
  split at h
  next rest =>
    split at h
    next r hs =>
      simp only [Option.some.injEq, Prod.mk.injEq] at h
      obtain ⟨ha, hb⟩ := h
      subst hb
      obtain ⟨j, hj1, hjn, hrun, hpar, hfail⟩ := searchOLL_inv (by rw [hs])
      have hd : rest.drop j = r.2.1 ++ r.2.2 := parseOLL_eq hpar
      rw [← ha, hrun]
      have : rest = rest.take j ++ rest.drop j := (List.take_append_drop j rest).symm
      conv_lhs => rw [this, hd]
      simp
    next h1 => exact absurd h (by simp)
  next h1 h2 => exact absurd h (by simp)

theorem matchPath_inv {p : Str} {r : MatchResult} (h : matchPath p = some r) :
    ∃ rest : Str, p = r.pre ++ rest ∧
      r.mid = (split2 rest).getD 1 [] ∧
      r.suf = (if (split2 rest).getD 2 [] = [] then [] else '/' :: (split2 rest).getD 2 []) := by
  unfold matchPath at h
  split at h
  next m hm =>
    injection h with h'
    subst h'
    exact ⟨m.2, by simpa [mkResult] using matchPatOLID_eq hm, by simp [mkResult],
      by simp [mkResult]⟩
  next hm1 =>
    split at h
    next m hm =>
      injection h with h'
      subst h'
      exact ⟨m.2, by simpa [mkResult] using matchPatIA_eq hm, by simp [mkResult],
        by simp [mkResult]⟩
    next hm2 =>
      split at h
      next m hm =>
        injection h with h'
        subst h'
        exact ⟨m.2, by simpa [mkResult] using matchPatOLID_eq hm, by simp [mkResult],
          by simp [mkResult]⟩
      next hm3 =>
        split at h
        next m hm =>
          injection h with h'
          subst h'
          exact ⟨m.2, by simpa [mkResult] using matchPatOLID_eq hm, by simp [mkResult],
            by simp [mkResult]⟩
        next hm4 =>
          split at h
          next m hm =>
            injection h with h'
            subst h'
            exact ⟨m.2, by simpa [mkResult] using matchPat5_eq hm, by simp [mkResult],
              by simp [mkResult]⟩
          next hm5 => exact absurd h (by simp)

/-! ### Branch lemmas for `get_readable_path` -/

theorem grp_nomatch {site : Site} {excl : Option Thing → Bool} {path : Str}
    {enc : Option Str} (h : matchPath path = none) :
    getReadablePath site excl path enc = ⟨path, path, false⟩ := by
  unfold getReadablePath
  rw [h]

theorem grp_ext {site : Site} {excl : Option Thing → Bool} {path : Str}
    {enc : Option Str} {r : MatchResult} (hm : matchPath path = some r)
    (he : (enc.isSome || endsWithExt path) = true) :
    getReadablePath site excl path enc =
      ⟨(match getObject site (splitext path).1 with
        | some t => t.key ++ (splitext path).2
        | none => path),
       (match getObject site (splitext path).1 with
        | some t => t.key ++ (splitext path).2
        | none => path), false⟩ := by
  unfold getReadablePath
  rw [hm]
  simp only [he, if_true]

theorem grp_slug_found {site : Site} {excl : Option Thing → Bool} {path : Str}
    {r : MatchResult} {t : Thing} (hm : matchPath path = some r)
    (hx : endsWithExt path = false) (ht : getObject site r.pre = some t) :
    getReadablePath site excl path none =
      ⟨t.key ++ r.suf,
       t.key ++ (if t.ty = r.ty then '/' :: slugOf t r.prop r.deflt else []) ++ r.suf,
       excl (some t)⟩ := by
  unfold getReadablePath
  rw [hm]
  simp only [Option.isSome_none, hx, Bool.or_self, Bool.false_eq_true, if_false, ht]

theorem grp_slug_none {site : Site} {excl : Option Thing → Bool} {path : Str}
    {r : MatchResult} (hm : matchPath path = some r)
    (hx : endsWithExt path = false) (ht : getObject site r.pre = none) :
    getReadablePath site excl path none =
      ⟨r.pre ++ r.suf, r.pre ++ r.suf, excl none⟩ := by
  unfold getReadablePath
  rw [hm]
  simp only [Option.isSome_none, hx, Bool.or_self, Bool.false_eq_true, if_false, ht]

/-! ### Witness data -/

def tWit : Thing := ⟨lit "/books/OL1M", lit "/type/edition", [(lit "title", lit "Twain")]⟩

def siteWit : Site := ⟨[(lit "/books/OL1M", tWit)]⟩

def exclWit : Option Thing → Bool := fun _ => false

def rWit : MatchResult :=
  ⟨lit "/type/edition", lit "title", lit "untitled", lit "/books/OL1M", [], []⟩

def tWitA : Thing := ⟨lit "/authors/OL1A", lit "/type/author", [(lit "name", lit "Mark")]⟩

def siteWitA : Site := ⟨[(lit "/authors/OL1A", tWitA)]⟩

def rWitA1 : MatchResult :=
  ⟨lit "/type/author", lit "name", lit "noname", lit "/a/OL1A", [], []⟩

def rWitA2 : MatchResult :=
  ⟨lit "/type/author", lit "name", lit "noname", lit "/authors/OL1A", [], []⟩

/-! ### Claim theorems -/

/-- C2: on a rule-matching path with no structured-data extension and no
encoding override, when the fallback lookup finds a record whose type equals
the rule's type, resolution returns `realPath = prefix ++ suffix` and
`readablePath = prefix ++ middle ++ suffix` with `prefix` the record's own
canonical key and `middle` equal to `/` followed by the slug: the record's
title field, with the rule's default replacing an absent or empty value,
stripped of surrounding whitespace and plus/percent-encoded as a form-encoded
path segment.  The slug occurs in the readable path only, never in the real
path. -/
theorem claim_C2_slug_shape {site : Site} {excl : Option Thing → Bool} {path : Str}
    {r : MatchResult} {t : Thing}
    (hm : matchPath path = some r) (hx : endsWithExt path = false)
    (ht : getObject site r.pre = some t) (hty : t.ty = r.ty) :
    getReadablePath site excl path none =
      ⟨t.key ++ r.suf,
       t.key ++ ('/' :: quotePlus (urlsafe (stripWs (titleOf t r.prop r.deflt)))) ++ r.suf,
       excl (some t)⟩ := by
  rw [grp_slug_found hm hx ht]
  simp [hty, slugOf]

theorem claim_C2_slug_shape_w :
    getReadablePath siteWit exclWit (lit "/books/OL1M") none =
      ⟨lit "/books/OL1M", lit "/books/OL1M/Twain", false⟩ :=
  (@claim_C2_slug_shape siteWit exclWit (lit "/books/OL1M") rWit tWit
    (by decide) (by decide) (by decide) (by decide)).trans (by decide)

/-- C5: a path matching no rule resolves to `(path, path)` with the exclusion
flag clear, and the result is independent of the object store, the exclusion
collaborator and the encoding override, so no store lookup can influence
it. -/
theorem claim_C5_nomatch {site site2 : Site} {excl excl2 : Option Thing → Bool}
    {path : Str} {enc enc2 : Option Str} (h : matchPath path = none) :
    getReadablePath site excl path enc = ⟨path, path, false⟩ ∧
    getReadablePath site excl path enc = getReadablePath site2 excl2 path enc2 :=
  ⟨grp_nomatch h, (grp_nomatch h).trans (grp_nomatch h).symm⟩

theorem claim_C5_nomatch_w :
    getReadablePath siteWit exclWit (lit "/about") none =
      ⟨lit "/about", lit "/about", false⟩ ∧
    getReadablePath siteWit exclWit (lit "/about") none =
      getReadablePath (Site.mk []) exclWit (lit "/about") none :=
  @claim_C5_nomatch siteWit (Site.mk []) exclWit exclWit (lit "/about") none none (by decide)

/-- C6: on a rule-matching path that ends in `.json`, `.rdf` or `.yml`, or
under an explicit encoding override, resolution strips the extension,
resolves the base key through the fallback lookup, replaces it with the
found record's canonical key when a record is found, re-appends the
extension, and returns the same string as both real and readable path, with
no slug and no exclusion flag. -/
theorem claim_C6_ext_branch {site : Site} {excl : Option Thing → Bool} {path : Str}
    {enc : Option Str} {r : MatchResult} (hm : matchPath path = some r)
    (he : enc.isSome = true ∨ endsWithExt path = true) :
    getReadablePath site excl path enc =
      ⟨(match getObject site (splitext path).1 with
        | some t => t.key ++ (splitext path).2
        | none => path),
       (match getObject site (splitext path).1 with
        | some t => t.key ++ (splitext path).2
        | none => path), false⟩ :=
  grp_ext hm (by rcases he with h | h <;> simp [h])

theorem claim_C6_ext_branch_w :
    getReadablePath siteWit exclWit (lit "/books/OL1M.json") none =
      ⟨lit "/books/OL1M.json", lit "/books/OL1M.json", false⟩ :=
  (@claim_C6_ext_branch siteWit exclWit (lit "/books/OL1M.json") none rWit
    (by decide) (Or.inr (by decide))).trans (by decide)

/-- C7: two rule-matching paths (for instance a legacy `/a/OL1A` form and its
modern `/authors/OL1A` form) whose fallback lookups reach the same record
and whose suffixes agree resolve to the same real path, because the matched
prefix is replaced by the found record's own canonical key. -/
theorem claim_C7_legacy_equiv {site : Site} {excl excl2 : Option Thing → Bool}
    {p1 p2 : Str} {r1 r2 : MatchResult} {t : Thing}
    (h1 : matchPath p1 = some r1) (h2 : matchPath p2 = some r2)
    (hx1 : endsWithExt p1 = false) (hx2 : endsWithExt p2 = false)
    (g1 : getObject site r1.pre = some t) (g2 : getObject site r2.pre = some t)
    (hs : r1.suf = r2.suf) :
    (getReadablePath site excl p1 none).real =
      (getReadablePath site excl2 p2 none).real := by
  rw [grp_slug_found h1 hx1 g1, grp_slug_found h2 hx2 g2]
  simp [hs]

theorem claim_C7_legacy_equiv_w :
    (getReadablePath siteWitA exclWit (lit "/a/OL1A") none).real =
      (getReadablePath siteWitA exclWit (lit "/authors/OL1A") none).real :=
  @claim_C7_legacy_equiv siteWitA exclWit exclWit (lit "/a/OL1A") (lit "/authors/OL1A")
    rWitA1 rWitA2 tWitA (by decide) (by decide) (by decide) (by decide)
    (by decide) (by decide) (by decide)

/-! ### Candidate-list view of the fallback lookup -/

/-- First successful lookup among a list of candidate keys. -/
def firstHit (site : Site) : List Str → Option Thing
  | [] => none
  | k :: ks =>
    match siteGet site k with
    | some t => some t
    | none => firstHit site ks

/-- Continues with the candidate list only when nothing was found yet. -/
def tryCand (site : Site) (o : Option Thing) (l : List Str) : Option Thing :=
  match o with
  | some t => some t
  | none => firstHit site l

/-- The legacy-prefix rewrite of `_get_object`: `/a/` to `/authors/`,
`/b/` to `/books/`, `/user/` to `/people/`. -/
def legacyRewrite (key : Str) : Str :=
  if (lit "/a/").isPrefixOf key then lit "/authors/" ++ key.drop 3
  else if (lit "/b/").isPrefixOf key then lit "/books/" ++ key.drop 3
  else if (lit "/user/").isPrefixOf key then lit "/people/" ++ key.drop 6
  else key

/-- The basename retries of `_get_object`, in source order: `ia:` to
`/books/`, `OL…W` to `/works/`, `OL…M` to `/books/`, `OL…A` to
`/authors/`.  The code tests only `startswith("OL")` and the final
letter. -/
def bnCands (bn : Str) : List Str :=
  (if (lit "ia:").isPrefixOf bn then [lit "/books/" ++ bn] else []) ++
  (if (lit "OL").isPrefixOf bn ∧ bn.getLast? = some 'W' then [lit "/works/" ++ bn] else []) ++
  (if (lit "OL").isPrefixOf bn ∧ bn.getLast? = some 'M' then [lit "/books/" ++ bn] else []) ++
  (if (lit "OL").isPrefixOf bn ∧ bn.getLast? = some 'A' then [lit "/authors/" ++ bn] else [])

/-- The candidate keys `_get_object` tries, in order: the key itself, its
legacy rewrite when that changes it, then the basename retries computed
from the rewritten key. -/
def codeCands (key : Str) : List Str :=
  key :: ((if legacyRewrite key = key then [] else [legacyRewrite key]) ++
    bnCands (lastSeg (legacyRewrite key)))

/-- The candidate list as claim C3 states it: the basename retries demand an
`OL<digits>` identifier, i.e. at least one character between `OL` and the
final letter, all of them digits. -/
def olidBasename (letter : Char) (bn : Str) : Bool :=
  match bn with
  | 'O' :: 'L' :: r => r.dropLast ≠ [] && r.dropLast.all Char.isDigit && r.getLast? = some letter
  | _ => false

/-- Basename retries under claim C3's reading. -/
def bnCandsSpec (bn : Str) : List Str :=
  (if (lit "ia:").isPrefixOf bn then [lit "/books/" ++ bn] else []) ++
  (if olidBasename 'W' bn then [lit "/works/" ++ bn] else []) ++
  (if olidBasename 'M' bn then [lit "/books/" ++ bn] else []) ++
  (if olidBasename 'A' bn then [lit "/authors/" ++ bn] else [])

/-- The fallback lookup as claim C3 states it. -/
def specCands (key : Str) : List Str :=
  key :: ((if legacyRewrite key = key then [] else [legacyRewrite key]) ++
    bnCandsSpec (lastSeg (legacyRewrite key)))

theorem firstHit_cons (site : Site) (k : Str) (l : List Str) :
    firstHit site (k :: l) = tryCand site (siteGet site k) l := by
  cases h : siteGet site k <;> simp [firstHit, tryCand, h]

theorem firstHit_append (site : Site) (l1 l2 : List Str) :
    firstHit site (l1 ++ l2) = tryCand site (firstHit site l1) l2 := by
  induction l1 with
  | nil => simp [firstHit, tryCand]
  | cons k ks ih =>
    cases h : siteGet site k <;> simp [firstHit, tryCand, h, ih]

theorem tryCand_append (site : Site) (o : Option Thing) (l1 l2 : List Str) :
    tryCand site o (l1 ++ l2) = tryCand site (tryCand site o l1) l2 := by
  cases o with
  | some t => rfl
  | none => simp [tryCand, firstHit_append]

theorem step_eq (site : Site) (o : Option Thing) (c : Prop) [Decidable c] (k : Str) :
    (if o = none ∧ c then siteGet site k else o) = tryCand site o (if c then [k] else []) := by
  cases o with
  | some t => by_cases hc : c <;> simp [hc, tryCand]
  | none =>
    by_cases hc : c
    · simp only [hc, and_true, if_pos rfl, if_true, tryCand]
      cases h : siteGet site k <;> simp [firstHit, h]
    · simp [hc, tryCand, firstHit]

theorem step_eq_none (site : Site) (c : Prop) [Decidable c] (k : Str) :
    (if c then siteGet site k else none) = tryCand site none (if c then [k] else []) := by
  by_cases hc : c
  · simp only [hc, if_true, tryCand]
    cases h : siteGet site k <;> simp [firstHit, h]
  · simp [hc, tryCand, firstHit]

theorem bPre_authors (x : Str) : (lit "/b/").isPrefixOf (lit "/authors/" ++ x) = false := rfl

theorem uPre_authors (x : Str) : (lit "/user/").isPrefixOf (lit "/authors/" ++ x) = false := rfl

theorem uPre_books (x : Str) : (lit "/user/").isPrefixOf (lit "/books/" ++ x) = false := rfl

theorem getObject_eq_firstHit (site : Site) (key : Str) :
    getObject site key = firstHit site (codeCands key) := by
  rcases h0 : siteGet site key with _ | t
  case some =>
    rw [codeCands, firstHit_cons, h0]
    simp [getObject, h0, tryCand]
  case none =>
  by_cases ha : (lit "/a/").isPrefixOf key
  · have hlr : legacyRewrite key = lit "/authors/" ++ key.drop 3 := by
      simp [legacyRewrite, ha]
    have hne : ¬(lit "/authors/" ++ key.drop 3 = key) := by
      intro he
      have h3 : 3 ≤ key.length := by
        have := (List.isPrefixOf_iff_prefix.mp ha).length_le
        simpa [lit] using this
      have := congrArg List.length he
      simp [lit] at this
      omega
    have hrhs : firstHit site (codeCands key) =
        tryCand site (siteGet site (lit "/authors/" ++ key.drop 3))
          (bnCands (lastSeg (lit "/authors/" ++ key.drop 3))) := by
      rw [codeCands, hlr, if_neg hne, firstHit_cons, h0, List.singleton_append]
      show firstHit site _ = _
      rw [firstHit_cons]
    rw [hrhs]
    simp only [getObject, h0, ha, and_true, ne_eq, not_false_iff, if_pos, if_true, and_false,
      bPre_authors, uPre_authors, Bool.false_eq_true, if_false]
    rw [step_eq, step_eq, step_eq, step_eq, ← tryCand_append, ← tryCand_append, ← tryCand_append]
    simp [bnCands]
  by_cases hb : (lit "/b/").isPrefixOf key
  · have hlr : legacyRewrite key = lit "/books/" ++ key.drop 3 := by
      simp [legacyRewrite, ha, hb]
    have hne : ¬(lit "/books/" ++ key.drop 3 = key) := by
      intro he
      have h3 : 3 ≤ key.length := by
        have := (List.isPrefixOf_iff_prefix.mp hb).length_le
        simpa [lit] using this
      have := congrArg List.length he
      simp [lit] at this
      omega
    have hrhs : firstHit site (codeCands key) =
        tryCand site (siteGet site (lit "/books/" ++ key.drop 3))
          (bnCands (lastSeg (lit "/books/" ++ key.drop 3))) := by
      rw [codeCands, hlr, if_neg hne, firstHit_cons, h0, List.singleton_append]
      show firstHit site _ = _
      rw [firstHit_cons]
    rw [hrhs]
    simp only [getObject, h0, ha, hb, and_true, ne_eq, not_false_iff, if_pos, if_true, and_false,
      uPre_books, Bool.false_eq_true, if_false]
    rw [step_eq, step_eq, step_eq, step_eq, ← tryCand_append, ← tryCand_append, ← tryCand_append]
    simp [bnCands]
  by_cases hu : (lit "/user/").isPrefixOf key
  · have hlr : legacyRewrite key = lit "/people/" ++ key.drop 6 := by
      simp [legacyRewrite, ha, hb, hu]
    have hne : ¬(lit "/people/" ++ key.drop 6 = key) := by
      intro he
      have h6 : 6 ≤ key.length := by
        have := (List.isPrefixOf_iff_prefix.mp hu).length_le
        simpa [lit] using this
      have := congrArg List.length he
      simp [lit] at this
      omega
    have hrhs : firstHit site (codeCands key) =
        tryCand site (siteGet site (lit "/people/" ++ key.drop 6))
          (bnCands (lastSeg (lit "/people/" ++ key.drop 6))) := by
      rw [codeCands, hlr, if_neg hne, firstHit_cons, h0, List.singleton_append]
      show firstHit site _ = _
      rw [firstHit_cons]
    rw [hrhs]
    simp only [getObject, h0, ha, hb, hu, and_true, ne_eq, not_false_iff, if_pos, if_true,
      and_false, Bool.false_eq_true, if_false]
    rw [step_eq, step_eq, step_eq, step_eq, ← tryCand_append, ← tryCand_append, ← tryCand_append]
    simp [bnCands]
  · have hlr : legacyRewrite key = key := by
      simp [legacyRewrite, ha, hb, hu]
    have hrhs : firstHit site (codeCands key) =
        tryCand site (none : Option Thing) (bnCands (lastSeg key)) := by
      rw [codeCands, hlr, if_pos rfl, firstHit_cons, h0, List.nil_append]
    rw [hrhs]
    simp only [getObject, h0, ha, hb, hu, and_true, ne_eq, not_false_iff, if_pos, if_true,
      and_false, Bool.false_eq_true, if_false]
    rw [step_eq, step_eq, step_eq]
    simp only [true_and]
    rw [step_eq_none, ← tryCand_append, ← tryCand_append, ← tryCand_append]
    simp [bnCands]

def tC3 : Thing := ⟨lit "/works/OLxW", lit "/type/work", []⟩

def siteC3 : Site := ⟨[(lit "/works/OLxW", tC3)]⟩

/-- C3 counterexample: the code retries any basename that starts with `OL`
and ends with `W`, digits or not, so `/things/OLxW` finds `/works/OLxW`,
while the claim's `OL<digits>W` candidate list finds nothing. -/
theorem claim_C3_counterexample :
    getObject siteC3 (lit "/things/OLxW") = some tC3 ∧
    firstHit siteC3 (specCands (lit "/things/OLxW")) = none := by decide

/-- C3 (amended): the fallback lookup equals a first-success scan of the
candidate list: the key itself, its legacy rewrite (`/a/` to `/authors/`,
`/b/` to `/books/`, `/user/` to `/people/`) when that changes the key, then
the basename retries in source order — `ia:` prefixed basenames under
`/books/`, basenames starting with `OL` and ending in `W` under `/works/`,
in `M` under `/books/`, in `A` under `/authors/` (only the first two and
the last characters are inspected, not the digits between) — with `none`
only when every candidate fails. -/
theorem claim_C3_fallback_order (site : Site) (key : Str) :
    getObject site key = firstHit site (codeCands key) :=
  getObject_eq_firstHit site key

/-! ### Quoting lemmas -/

theorem mem_of_getLast?_eq {l : Str} {a : Char} (h : l.getLast? = some a) : a ∈ l := by
  have hne : l ≠ [] := by intro he; rw [he] at h; simp at h
  have heq := List.getLast?_eq_getLast l hne
  rw [heq] at h
  rw [← Option.some.inj h]
  exact List.getLast_mem hne

theorem utf8Bytes_ne_nil (c : Char) : utf8Bytes c ≠ [] := by
  simp only [utf8Bytes]
  split
  · simp
  · split
    · simp
    · split <;> simp

theorem hexDigit_ne_slash (n : Nat) : hexDigit n ≠ '/' := by
  match n with
  | 0 | 1 | 2 | 3 | 4 | 5 | 6 | 7 | 8 | 9 | 10 | 11 | 12 | 13 | 14 => decide
  | k + 15 => show ('F' : Char) ≠ '/'; decide

theorem pctByte_no_slash (b : Nat) : '/' ∉ pctByte b := by
  simp only [pctByte, List.mem_cons, List.mem_singleton, not_or]
  refine ⟨by decide, ?_, ?_, by simp⟩
  · exact fun h => hexDigit_ne_slash (b / 16) h.symm
  · exact fun h => hexDigit_ne_slash (b % 16) h.symm

theorem quoteChar_no_slash {c : Char} : '/' ∉ quoteChar c := by
  unfold quoteChar
  split
  next hs =>
    simp only [List.mem_singleton]
    intro he
    rw [← he] at hs
    exact absurd hs (by decide)
  next hs =>
    intro hmem
    obtain ⟨l, hl, hml⟩ := List.mem_flatten.mp hmem
    obtain ⟨b, hb, hbl⟩ := List.mem_map.mp hl
    rw [← hbl] at hml
    exact pctByte_no_slash b hml

theorem quoteChar_ne_nil (c : Char) : quoteChar c ≠ [] := by
  unfold quoteChar
  split
  · simp
  · cases hb : utf8Bytes c with
    | nil => exact absurd hb (utf8Bytes_ne_nil c)
    | cons b bs => simp [hb, pctByte]

theorem quoteDefault_cons (c : Char) (cs : Str) :
    quoteDefault (c :: cs) = (if c = '/' then ['/'] else quoteChar c) ++ quoteDefault cs := by
  simp [quoteDefault]

theorem quoteDefault_append (a b : Str) :
    quoteDefault (a ++ b) = quoteDefault a ++ quoteDefault b := by
  simp [quoteDefault]

theorem quoteDefault_ne_nil {s : Str} (h : s ≠ []) : quoteDefault s ≠ [] := by
  cases s with
  | nil => exact absurd rfl h
  | cons c cs =>
    rw [quoteDefault_cons]
    by_cases hc : c = '/'
    · simp [hc]
    · rw [if_neg hc]
      simp only [ne_eq, List.append_eq_nil, not_and]
      intro hq
      exact absurd hq (quoteChar_ne_nil c)

theorem quoteDefault_last_slash {s : Str} (h : s.getLast? = some '/') :
    (quoteDefault s).getLast? = some '/' := by
  have hne : s ≠ [] := by intro he; rw [he] at h; simp at h
  have hl : s.getLast hne = '/' := by
    have heq := List.getLast?_eq_getLast s hne
    rw [heq] at h
    exact Option.some.inj h
  have hs : s.dropLast ++ ['/'] = s := by
    rw [← hl]
    exact List.dropLast_append_getLast hne
  rw [← hs, quoteDefault_append, List.getLast?_append]
  simp [quoteDefault_cons, quoteDefault]

theorem quoteDefault_last_no_slash {s : Str} (h : s.getLast? ≠ some '/') :
    (quoteDefault s).getLast? ≠ some '/' := by
  induction s with
  | nil => simp [quoteDefault]
  | cons c cs ih =>
    rw [quoteDefault_cons]
    cases cs with
    | nil =>
      have hcne : c ≠ '/' := by
        intro he
        exact h (by rw [he]; rfl)
      rw [if_neg hcne]
      simp only [quoteDefault, List.map_nil, List.flatten_nil, List.append_nil]
      intro hq
      exact quoteChar_no_slash (mem_of_getLast?_eq hq)
    | cons d ds =>
      have hq_ne : quoteDefault (d :: ds) ≠ [] := quoteDefault_ne_nil (by simp)
      rw [List.getLast?_cons_cons] at h
      have ih' := ih h
      rw [List.getLast?_append]
      obtain ⟨x, hx⟩ : ∃ x, (quoteDefault (d :: ds)).getLast? = some x := by
        have heq := List.getLast?_eq_getLast (quoteDefault (d :: ds)) hq_ne
        exact ⟨_, heq⟩
      rw [hx]
      rw [hx] at ih'
      show (some x).or (if c = '/' then ['/'] else quoteChar c).getLast? ≠ some '/'
      exact (show (some x).or (if c = '/' then ['/'] else quoteChar c).getLast? = some x
        from rfl) ▸ ih'

theorem head?_dropWhile_not {q : Char → Bool} (l : Str) {c : Char}
    (h : (l.dropWhile q).head? = some c) : q c = false := by
  induction l with
  | nil => simp [List.dropWhile] at h
  | cons a as ih =>
    rw [List.dropWhile_cons] at h
    by_cases hq : q a
    · rw [if_pos hq] at h
      exact ih h
    · rw [if_neg hq] at h
      simp only [List.head?_cons, Option.some.injEq] at h
      rw [← h]
      exact Bool.eq_false_iff.mpr hq

theorem rstrip_no_slash (s : Str) : (rstripSlash s).getLast? ≠ some '/' := by
  unfold rstripSlash
  rw [List.getLast?_reverse]
  intro h
  have hq := head?_dropWhile_not s.reverse h
  simp at hq

theorem stripTrail_no_slash (s : Str) : (stripTrail s).getLast? ≠ some '/' := by
  unfold stripTrail
  split
  · exact rstrip_no_slash s
  · next hn => exact hn

theorem splitOnChar_ne_nil (sep : Char) (s : Str) : splitOnChar sep s ≠ [] := by
  cases s with
  | nil => simp [splitOnChar]
  | cons c cs =>
    unfold splitOnChar
    by_cases hc : c = sep
    · simp [hc]
    · rw [if_neg hc]
      split <;> simp

theorem joinSep_quoteSeg (x : Str) :
    joinSep '/' ((splitOnChar '/' x).map quoteSeg) = quoteDefault x := by
  induction x with
  | nil => rfl
  | cons c cs ih =>
    rcases hsp : splitOnChar '/' cs with _ | ⟨t, ts⟩
    · exact absurd hsp (splitOnChar_ne_nil '/' cs)
    · rw [hsp] at ih
      by_cases hc : c = '/'
      · subst hc
        have hstep : splitOnChar '/' ('/' :: cs) = [] :: t :: ts := by
          simp [splitOnChar, hsp]
        rw [hstep, quoteDefault_cons, if_pos rfl]
        show '/' :: joinSep '/' ((t :: ts).map quoteSeg) = ['/'] ++ quoteDefault cs
        rw [ih]
        rfl
      · have hstep : splitOnChar '/' (c :: cs) = (c :: t) :: ts := by
          simp [splitOnChar, hc, hsp]
        rw [hstep, quoteDefault_cons, if_neg hc]
        cases ts with
        | nil =>
          show quoteSeg (c :: t) = quoteChar c ++ quoteDefault cs
          have ih2 : quoteSeg t = quoteDefault cs := ih
          rw [← ih2]
          simp [quoteSeg]
        | cons u us =>
          show quoteSeg (c :: t) ++ '/' :: joinSep '/' ((u :: us).map quoteSeg) =
            quoteChar c ++ quoteDefault cs
          rw [← ih]
          show quoteSeg (c :: t) ++ '/' :: joinSep '/' ((u :: us).map quoteSeg) =
            quoteChar c ++ (quoteSeg t ++ '/' :: joinSep '/' ((u :: us).map quoteSeg))
          simp [quoteSeg]

theorem getLast?_append_right {l1 l2 : Str} (h : l2 ≠ []) :
    (l1 ++ l2).getLast? = l2.getLast? := by
  rw [List.getLast?_append]
  rw [List.getLast?_eq_getLast l2 h]
  rfl

theorem encodeUrlPath_eq (s : Str) :
    encodeUrlPath s =
      quoteDefault (splitFirst '?' (splitFirst '#' s).1).1
        ++ (match (splitFirst '?' (splitFirst '#' s).1).2 with
            | some qs => '?' :: qs | none => [])
        ++ (match (splitFirst '#' s).2 with
            | some fr => '#' :: fr | none => []) := by
  simp only [encodeUrlPath]
  rw [joinSep_quoteSeg]

theorem encode_no_slash {s : Str} (h : s.getLast? ≠ some '/') :
    (encodeUrlPath s).getLast? ≠ some '/' := by
  rw [encodeUrlPath_eq]
  rcases hf : splitFirst '#' s with ⟨m, fro⟩
  cases fro with
  | some fr =>
    obtain ⟨hs, _⟩ := splitFirst_eq_some hf
    show (_ ++ _ ++ ('#' :: fr)).getLast? ≠ some '/'
    rw [getLast?_append_right (by simp)]
    rw [hs, getLast?_append_right (by simp)] at h
    exact h
  | none =>
    obtain ⟨hm, _⟩ := splitFirst_eq_none hf
    rcases hq : splitFirst '?' m with ⟨p1, qo⟩
    cases qo with
    | some qs =>
      obtain ⟨hs, _⟩ := splitFirst_eq_some hq
      show (quoteDefault p1 ++ ('?' :: qs) ++ []).getLast? ≠ some '/'
      rw [List.append_nil, getLast?_append_right (by simp)]
      rw [hm] at hs
      rw [hs, getLast?_append_right (by simp)] at h
      exact h
    | none =>
      obtain ⟨hp, _⟩ := splitFirst_eq_none hq
      show (quoteDefault p1 ++ [] ++ []).getLast? ≠ some '/'
      rw [List.append_nil, List.append_nil]
      rw [hm] at hp
      rw [← hp] at h
      exact quoteDefault_last_no_slash h

/-! ### Processor-level lemmas and claims -/

theorem processor_main (site : Site) (excl : Option Thing → Bool) (req : Req) (out : Str)
    (hl : (lit "/l/").isPrefixOf req.path = false)
    (hu : ¬((lit "/user/").isPrefixOf req.path ∧ siteGet site req.path = none)) :
    processor site excl req out =
      if procReadable site excl req ≠ req.path ∧
          procReadable site excl req ≠ quoteDefault req.path ∧ req.method = lit "GET" then
        POut.redirect (procReadable site excl req ++ req.query)
      else if (getReadablePath site excl req.path req.encoding).exclude
          || (procReadableRaw site excl req).exclude then
        POut.notFound (procReal site excl req)
      else
        POut.ok out (procReal site excl req) (procReadable site excl req) := by
  unfold processor
  simp only [hl, Bool.false_eq_true, if_false, if_neg hu]
  rfl

/-- C1: outside the `/l/` and `/user/` legacy shortcuts, the processor
issues the readable-path redirect to `readablePath ++ queryString` exactly
when the computed readable path differs from the raw request path, differs
from the percent-encoded request path, and the method is `GET`; and for a
non-GET method no readable-path redirect is ever issued, shortcut or not. -/
theorem claim_C1_redirect_iff (site : Site) (excl : Option Thing → Bool)
    (req : Req) (out : Str) :
    ((lit "/l/").isPrefixOf req.path = false →
      ¬((lit "/user/").isPrefixOf req.path ∧ siteGet site req.path = none) →
      (processor site excl req out =
          POut.redirect (procReadable site excl req ++ req.query) ↔
        (procReadable site excl req ≠ req.path ∧
         procReadable site excl req ≠ quoteDefault req.path ∧
         req.method = lit "GET"))) ∧
    (req.method ≠ lit "GET" →
      ∀ tgt, processor site excl req out ≠ POut.redirect tgt) := by
  constructor
  · intro hl hu
    rw [processor_main site excl req out hl hu]
    by_cases hc : procReadable site excl req ≠ req.path ∧
        procReadable site excl req ≠ quoteDefault req.path ∧ req.method = lit "GET"
    · rw [if_pos hc]
      simp [hc]
    · rw [if_neg hc]
      constructor
      · intro hr
        split at hr <;> exact absurd hr (by simp)
      · intro hcc
        exact absurd hcc hc
  · intro hm tgt
    unfold processor
    by_cases hl : (lit "/l/").isPrefixOf req.path
    · simp [hl]
    · by_cases hu : (lit "/user/").isPrefixOf req.path ∧ siteGet site req.path = none
      · simp [hl, hu]
      · simp only [hl, Bool.false_eq_true, if_false, if_neg hu]
        have hcond : ¬(encodeUrlPath (stripTrail (procReadableRaw site excl req).readable)
            ≠ req.path ∧
            encodeUrlPath (stripTrail (procReadableRaw site excl req).readable)
            ≠ quoteDefault req.path ∧ req.method = lit "GET") := by
          intro hcc
          exact hm hcc.2.2
        rw [if_neg hcond]
        split <;> simp

theorem claim_C1_redirect_iff_w :
    processor siteWit exclWit ⟨lit "/books/OL1M", lit "GET", [], none⟩ (lit "OUT") =
      POut.redirect
        (procReadable siteWit exclWit ⟨lit "/books/OL1M", lit "GET", [], none⟩ ++ []) :=
  ((claim_C1_redirect_iff siteWit exclWit ⟨lit "/books/OL1M", lit "GET", [], none⟩
    (lit "OUT")).1 (by decide) (by decide)).mpr (by decide)

def exclTrue : Option Thing → Bool := fun _ => true

/-- C9: when the processor reaches the wrapped handler (no legacy shortcut
and no readable-path redirect), the response is the 404 not-found rendering
of the installed real path whenever the exclusion flag was set during either
resolution, and the handler's output unchanged otherwise. -/
theorem claim_C9_exclusion (site : Site) (excl : Option Thing → Bool)
    (req : Req) (out : Str) :
    (lit "/l/").isPrefixOf req.path = false →
    ¬((lit "/user/").isPrefixOf req.path ∧ siteGet site req.path = none) →
    ¬(procReadable site excl req ≠ req.path ∧
      procReadable site excl req ≠ quoteDefault req.path ∧
      req.method = lit "GET") →
    processor site excl req out =
      if (getReadablePath site excl req.path req.encoding).exclude
          || (procReadableRaw site excl req).exclude then
        POut.notFound (procReal site excl req)
      else
        POut.ok out (procReal site excl req) (procReadable site excl req) := by
  intro hl hu hc
  rw [processor_main site excl req out hl hu, if_neg hc]

theorem claim_C9_exclusion_w :
    processor siteWit exclTrue ⟨lit "/books/OL1M/Twain", lit "GET", [], none⟩ (lit "OUT") =
      POut.notFound (lit "/books/OL1M") :=
  (claim_C9_exclusion siteWit exclTrue ⟨lit "/books/OL1M/Twain", lit "GET", [], none⟩
    (lit "OUT") (by decide) (by decide) (by decide)).trans (by decide)

/-- C10: the redirect decision compares against the raw request path while
the readable path is computed from the trailing-slash-stripped path and then
stripped and encoded, so it never ends in a slash; hence every GET request
whose raw path ends in `/` (and is not a legacy shortcut) is redirected —
including the root path `/`, whose normalized form is empty and which is
redirected to the empty path plus the query string. -/
theorem claim_C10_trailing_slash (site : Site) (excl : Option Thing → Bool)
    (req : Req) (out : Str) :
    ((lit "/l/").isPrefixOf req.path = false →
      ¬((lit "/user/").isPrefixOf req.path ∧ siteGet site req.path = none) →
      req.method = lit "GET" →
      req.path.getLast? = some '/' →
      processor site excl req out =
        POut.redirect (procReadable site excl req ++ req.query)) ∧
    (∀ (site2 : Site) (excl2 : Option Thing → Bool) (q : Str) (enc : Option Str) (out2 : Str),
      processor site2 excl2 ⟨['/'], lit "GET", q, enc⟩ out2 = POut.redirect q) := by
  constructor
  · intro hl hu hm hp
    have hnos : (procReadable site excl req).getLast? ≠ some '/' :=
      encode_no_slash (stripTrail_no_slash _)
    rw [processor_main site excl req out hl hu, if_pos ?_]
    refine ⟨?_, ?_, hm⟩
    · intro he
      rw [he] at hnos
      exact hnos hp
    · intro he
      rw [he] at hnos
      exact hnos (quoteDefault_last_slash hp)
  · intro site2 excl2 q enc out2
    unfold processor
    rw [if_neg (by decide : ¬((lit "/l/").isPrefixOf (['/'] : Str) = true))]
    have huser : ¬((lit "/user/").isPrefixOf (['/'] : Str) = true) := by decide
    rw [if_neg (fun hcon => absurd hcon.1 huser)]
    simp only [procReadableRaw]
    have e2 : getReadablePath site2 excl2 (rstripSlash ['/']) enc = ⟨[], [], false⟩ :=
      grp_nomatch (by decide)
    have e1 : getReadablePath site2 excl2 ['/'] enc = ⟨['/'], ['/'], false⟩ :=
      grp_nomatch (by decide)
    simp only [e1, e2]
    refine Eq.trans (if_pos ⟨by decide, by decide, by decide⟩) ?_
    rfl

theorem claim_C10_trailing_slash_w :
    processor siteWit exclWit ⟨lit "/books/OL1M/", lit "GET", [], none⟩ (lit "OUT") =
      POut.redirect
        (procReadable siteWit exclWit ⟨lit "/books/OL1M/", lit "GET", [], none⟩ ++ []) :=
  (claim_C10_trailing_slash siteWit exclWit ⟨lit "/books/OL1M/", lit "GET", [], none⟩
    (lit "OUT")).1 (by decide) (by decide) (by decide) (by decide)

/-! ### Claim C4: idempotence -/

def tC4 : Thing := ⟨lit "/works/OL1W", lit "/type/work", [(lit "title", lit "x")]⟩

def siteC4 : Site := ⟨[(lit "/books/OL1M", tC4), (lit "/works/OL1W", tC4)]⟩

/-- C4 counterexample: with a store whose `/books/OL1M` entry is an aliased
record of type `/type/work` with canonical key `/works/OL1W`, resolving
`/books/OL1M` yields readable path `/works/OL1W` (type mismatch, no slug),
but resolving that readable path matches the work rule and adds the slug,
yielding `/works/OL1W/x`; resolution is therefore not idempotent for every
path and store. -/
theorem claim_C4_counterexample :
    (getReadablePath siteC4 exclWit
      ((getReadablePath siteC4 exclWit (lit "/books/OL1M") none).readable) none).readable ≠
      (getReadablePath siteC4 exclWit (lit "/books/OL1M") none).readable := by decide

theorem quotePlus_no_slash {s : Str} : '/' ∉ quotePlus s := by
  intro h
  obtain ⟨l, hl, hml⟩ := List.mem_flatten.mp h
  obtain ⟨c, hc, hcl⟩ := List.mem_map.mp hl
  rw [← hcl] at hml
  unfold quotePlusChar at hml
  split at hml
  · simp at hml
  · exact quoteChar_no_slash hml

theorem getObject_direct {site : Site} {k : Str} {t : Thing}
    (h : siteGet site k = some t) : getObject site k = some t := by
  simp [getObject, h]

theorem matchPath_suf_shape {p : Str} {r : MatchResult} (h : matchPath p = some r) :
    r.suf = [] ∨ ∃ tail, tail ≠ [] ∧ r.suf = '/' :: tail := by
  obtain ⟨rest, _, _, hsuf⟩ := matchPath_inv h
  by_cases hnil : (split2 rest).getD 2 [] = []
  · left
    rw [hsuf, if_pos hnil]
  · right
    exact ⟨_, hnil, by rw [hsuf, if_neg hnil]⟩

theorem split2_slug (midp suf : Str) (hm : '/' ∉ midp)
    (hs : suf = [] ∨ ∃ tail, tail ≠ [] ∧ suf = '/' :: tail) :
    (split2 ('/' :: (midp ++ suf))).getD 1 [] = midp ∧
    ((if (split2 ('/' :: (midp ++ suf))).getD 2 [] = [] then []
      else '/' :: (split2 ('/' :: (midp ++ suf))).getD 2 []) = suf) := by
  have h1 : splitFirst '/' ('/' :: (midp ++ suf)) = ([], some (midp ++ suf)) := by
    simp [splitFirst]
  rcases hs with hnil | ⟨tail, htne, htail⟩
  · subst hnil
    rw [List.append_nil]
    have h1' : splitFirst '/' ('/' :: midp) = ([], some midp) := by
      simp [splitFirst]
    have h2 : splitFirst '/' midp = (midp, none) := splitFirst_not_mem hm
    simp [split2, h1', h2]
  · subst htail
    have h2 : splitFirst '/' (midp ++ '/' :: tail) = (midp, some tail) := splitFirst_append hm
    simp [split2, h1, h2, htne]

/-- C4 (amended): resolution is idempotent on the readable path whenever the
slug branch was taken (record found with matching type), the store returns
the record at its own canonical key, that key is not reparsed into a
structured-data extension, and the readable path re-matches the same rule
with the record's key as matched prefix.  The counterexample shows the extra
hypotheses are needed: aliasing across rules breaks unrestricted
idempotence. -/
theorem claim_C4_idem {site : Site} {excl : Option Thing → Bool} {p : Str}
    {r r2 : MatchResult} {t : Thing}
    (hm : matchPath p = some r) (hx : endsWithExt p = false)
    (ht : getObject site r.pre = some t) (hty : t.ty = r.ty)
    (hself : siteGet site t.key = some t)
    (hm2 : matchPath ((getReadablePath site excl p none).readable) = some r2)
    (hpre : r2.pre = t.key) (hty2 : r2.ty = r.ty) (hprop : r2.prop = r.prop)
    (hdef : r2.deflt = r.deflt)
    (hx2 : endsWithExt ((getReadablePath site excl p none).readable) = false) :
    (getReadablePath site excl
      ((getReadablePath site excl p none).readable) none).readable =
      (getReadablePath site excl p none).readable := by
  have hres := @grp_slug_found site excl p r t hm hx ht
  have hwval : (getReadablePath site excl p none).readable =
      t.key ++ ('/' :: slugOf t r.prop r.deflt) ++ r.suf := by
    rw [hres]
    simp [hty]
  obtain ⟨rest, hsplit, hmid, hsuf⟩ := matchPath_inv hm2
  rw [hpre] at hsplit
  have hcan : t.key ++ rest = t.key ++ (('/' :: slugOf t r.prop r.deflt) ++ r.suf) := by
    rw [← hsplit, hwval, List.append_assoc]
  have hrest : rest = ('/' :: slugOf t r.prop r.deflt) ++ r.suf :=
    List.append_cancel_left hcan
  have hshape := matchPath_suf_shape hm
  have hdecomp := split2_slug (slugOf t r.prop r.deflt) r.suf quotePlus_no_slash hshape
  have hrest2 : rest = '/' :: (slugOf t r.prop r.deflt ++ r.suf) := by
    rw [hrest]
    rfl
  have hsuf2 : r2.suf = r.suf := by
    rw [hsuf, hrest2]
    exact hdecomp.2
  have ht2 : getObject site r2.pre = some t := by
    rw [hpre]
    exact getObject_direct hself
  rw [@grp_slug_found site excl _ r2 t hm2 hx2 ht2]
  have htt : t.ty = r2.ty := by rw [hty2, hty]
  show t.key ++ (if t.ty = r2.ty then '/' :: slugOf t r2.prop r2.deflt else []) ++ r2.suf = _
  rw [if_pos htt, hwval, hsuf2, hprop, hdef]

def rWit2 : MatchResult :=
  ⟨lit "/type/edition", lit "title", lit "untitled", lit "/books/OL1M", lit "Twain", []⟩

theorem claim_C4_idem_w :
    (getReadablePath siteWit exclWit
      ((getReadablePath siteWit exclWit (lit "/books/OL1M") none).readable) none).readable =
      (getReadablePath siteWit exclWit (lit "/books/OL1M") none).readable :=
  @claim_C4_idem siteWit exclWit (lit "/books/OL1M") rWit rWit2 tWit
    (by decide) (by decide) (by decide) (by decide) (by decide) (by decide)
    (by decide) (by decide) (by decide) (by decide) (by decide)

/-! ### Trailing-slash shift lemmas for the matchers -/

theorem dropWhile_eq_nil_all {q : Char → Bool} {a : Str} (h : a.dropWhile q = []) :
    ∀ x ∈ a, q x = true := by
  have ht : a.takeWhile q = a := by
    have := List.takeWhile_append_dropWhile q a
    rw [h, List.append_nil] at this
    exact this
  intro x hx
  exact List.mem_takeWhile_imp (ht.symm ▸ hx)

theorem takeWhile_append_slash_nil {q : Char → Bool} {a : Str} (hq : q '/' = false)
    (h : a.takeWhile q = []) : (a ++ ['/']).takeWhile q = [] := by
  cases a with
  | nil => simp [List.takeWhile_cons, hq]
  | cons c cs =>
    rw [List.takeWhile_cons] at h
    by_cases hc : q c
    · rw [if_pos hc] at h
      simp at h
    · simp [List.takeWhile_cons, hc]

theorem matchPatOLID_shift_none {letter : Char} (hlet : letter ≠ '/') {p : Str}
    (h : matchPatOLID letter p = none) :
    matchPatOLID letter (p ++ ['/']) = none := by
  rcases hm : matchPatOLID letter (p ++ ['/']) with _ | ⟨a, b⟩
  · rfl
  exfalso
  unfold matchPatOLID at hm
  split at hm
  next rest' heq =>
    split at hm
    next r2' hdw' =>
      split at hm
      next c' r4' hdd' =>
        split at hm
        next => exact absurd hm (by simp)
        next hw' =>
          split at hm
          next => exact absurd hm (by simp)
          next hds' =>
            split at hm
            next hc' =>
              -- the appended path matched; rebuild a match of p and contradict h
              cases p with
              | nil =>
                have hrest' : rest' = [] := by simpa using heq
                subst hrest'
                simp at hdw'
              | cons c0 rest =>
                have heq2 : c0 = '/' ∧ rest ++ ['/'] = rest' := by simpa using heq
                obtain ⟨hc0, hrest'⟩ := heq2
                subst hc0
                rw [← hrest'] at hdw' hw'
                rcases hy : rest.dropWhile isWordChar with _ | ⟨y1, ys⟩
                · have hall : (rest ++ ['/']).dropWhile isWordChar = ['/'] := by
                    rw [dropWhile_append_all (dropWhile_eq_nil_all hy)]
                    rfl
                  rw [hall] at hdw'
                  simp at hdw'
                · have hstop : rest.dropWhile isWordChar ≠ [] := by rw [hy]; simp
                  have hd2 : (rest ++ ['/']).dropWhile isWordChar = y1 :: (ys ++ ['/']) := by
                    rw [dropWhile_append_stop hstop, hy]
                    rfl
                  rw [hd2] at hdw'
                  obtain ⟨hy1, hys⟩ := List.cons.inj hdw'
                  rcases ys with _ | ⟨y2, ys2⟩
                  · simp at hys
                  obtain ⟨hy2, hys2⟩ := List.cons.inj (by simpa using hys)
                  rcases ys2 with _ | ⟨y3, ys3⟩
                  · simp at hys2
                  obtain ⟨hy3, hys3⟩ := List.cons.inj (by simpa using hys2)
                  subst hy1 hy2 hy3
                  -- rest.dropWhile isWordChar = '/'::'O'::'L'::ys3, r2' = ys3 ++ ['/']
                  rw [← hys3] at hdd' hds'
                  rcases hz : ys3.dropWhile Char.isDigit with _ | ⟨z1, zs⟩
                  · have hallz : (ys3 ++ ['/']).dropWhile Char.isDigit = ['/'] := by
                      rw [dropWhile_append_all (dropWhile_eq_nil_all hz)]
                      rfl
                    rw [hallz] at hdd'
                    obtain ⟨hcz, _⟩ := List.cons.inj hdd'
                    rw [← hcz] at hc'
                    exact hlet hc'.symm
                  · have hstopz : ys3.dropWhile Char.isDigit ≠ [] := by rw [hz]; simp
                    have hz2 : (ys3 ++ ['/']).dropWhile Char.isDigit = z1 :: (zs ++ ['/']) := by
                      rw [dropWhile_append_stop hstopz, hz]
                      rfl
                    rw [hz2] at hdd'
                    obtain ⟨hz1, _⟩ := List.cons.inj hdd'
                    have htw : rest.takeWhile isWordChar ≠ [] := by
                      intro hnil
                      exact hw' (takeWhile_append_slash_nil (by decide) hnil)
                    have htd : ys3.takeWhile Char.isDigit ≠ [] := by
                      intro hnil
                      exact hds' (takeWhile_append_slash_nil (by decide) hnil)
                    have hsucc : matchPatOLID letter ('/' :: rest) =
                        some ('/' :: (rest.takeWhile isWordChar ++
                          '/' :: 'O' :: 'L' :: (ys3.takeWhile Char.isDigit ++ [letter])), zs) := by
                      unfold matchPatOLID
                      simp only [hy, hz]
                      rw [if_neg htw, if_neg htd, if_pos (by rw [hz1]; exact hc')]
                    rw [hsucc] at h
                    exact Option.noConfusion h
            next => exact absurd hm (by simp)
      next => exact absurd hm (by simp)
    next h1 h2 => exact absurd hm (by simp)
  next h1 h2 => exact absurd hm (by simp)

theorem matchPatOLID_shift_some {letter : Char} {p pre : Str}
    (h : matchPatOLID letter p = some (pre, [])) :
    matchPatOLID letter (p ++ ['/']) = some (pre, ['/']) := by
  unfold matchPatOLID at h
  split at h
  next rest =>
    split at h
    next r2 hdw =>
      split at h
      next c r4 hdd =>
        split at h
        next => exact absurd h (by simp)
        next hw =>
          split at h
          next => exact absurd h (by simp)
          next hds =>
            split at h
            next hc =>
              simp only [Option.some.injEq, Prod.mk.injEq] at h
              obtain ⟨hpre, hr4⟩ := h
              have hdw_ne : rest.dropWhile isWordChar ≠ [] := by rw [hdw]; simp
              have htw : (rest ++ ['/']).takeWhile isWordChar = rest.takeWhile isWordChar :=
                takeWhile_append_stop hdw_ne
              have hdw2 : (rest ++ ['/']).dropWhile isWordChar =
                  '/' :: 'O' :: 'L' :: (r2 ++ ['/']) := by
                rw [dropWhile_append_stop hdw_ne, hdw]
                rfl
              have hdd_ne : r2.dropWhile Char.isDigit ≠ [] := by rw [hdd]; simp
              have htd : (r2 ++ ['/']).takeWhile Char.isDigit = r2.takeWhile Char.isDigit :=
                takeWhile_append_stop hdd_ne
              have hdd2 : (r2 ++ ['/']).dropWhile Char.isDigit = c :: (r4 ++ ['/']) := by
                rw [dropWhile_append_stop hdd_ne, hdd]
                rfl
              unfold matchPatOLID
              simp only [List.cons_append, hdw2, hdd2, htw, htd]
              rw [if_neg hw, if_neg hds, if_pos hc]
              subst hr4
              rw [← hpre]
              simp
            next => exact absurd h (by simp)
      next => exact absurd h (by simp)
    next h1 h2 => exact absurd h (by simp)
  next h1 h2 => exact absurd h (by simp)

theorem matchPatIA_shift_some {p pre : Str}
    (h : matchPatIA p = some (pre, [])) :
    matchPatIA (p ++ ['/']) = some (pre, ['/']) := by
  unfold matchPatIA at h
  split at h
  next rest =>
    split at h
    next r2 hdw =>
      split at h
      next => exact absurd h (by simp)
      next hw =>
        split at h
        next => exact absurd h (by simp)
        next hcls =>
          simp only [Option.some.injEq, Prod.mk.injEq] at h
          obtain ⟨hpre, hrem⟩ := h
          have hdw_ne : rest.dropWhile isWordChar ≠ [] := by rw [hdw]; simp
          have htw : (rest ++ ['/']).takeWhile isWordChar = rest.takeWhile isWordChar :=
            takeWhile_append_stop hdw_ne
          have hdw2 : (rest ++ ['/']).dropWhile isWordChar =
              '/' :: 'i' :: 'a' :: ':' :: (r2 ++ ['/']) := by
            rw [dropWhile_append_stop hdw_ne, hdw]
            rfl
          have hall : ∀ x ∈ r2, isIAChar x = true := dropWhile_eq_nil_all hrem
          have htia0 : r2.takeWhile isIAChar = r2 := by
            have hta := List.takeWhile_append_dropWhile isIAChar r2
            rw [hrem, List.append_nil] at hta
            exact hta
          have htia : (r2 ++ ['/']).takeWhile isIAChar = r2 := by
            rw [takeWhile_append_all hall,
              (by decide : List.takeWhile isIAChar ['/'] = ([] : Str)), List.append_nil]
          have hdia : (r2 ++ ['/']).dropWhile isIAChar = ['/'] := by
            rw [dropWhile_append_all hall]
            rfl
          have hr2ne : ¬(r2 = []) := htia0 ▸ hcls
          unfold matchPatIA
          simp only [List.cons_append, hdw2, htw, htia, hdia]
          rw [if_neg hw, if_neg hr2ne]
          rw [← hpre, htia0]
    next h1 h2 => exact absurd h (by simp)
  next h1 h2 => exact absurd h (by simp)

theorem matchPatIA_shift_none {p : Str} (h : matchPatIA p = none) :
    matchPatIA (p ++ ['/']) = none := by
  rcases hm : matchPatIA (p ++ ['/']) with _ | ⟨a, b⟩
  · rfl
  exfalso
  unfold matchPatIA at hm
  split at hm
  next rest' heq =>
    split at hm
    next r2' hdw' =>
      split at hm
      next => exact absurd hm (by simp)
      next hw' =>
        split at hm
        next => exact absurd hm (by simp)
        next hcls' =>
          cases p with
          | nil =>
            have hrest' : rest' = [] := by simpa using heq
            subst hrest'
            simp at hdw'
          | cons c0 rest =>
            have heq2 : c0 = '/' ∧ rest ++ ['/'] = rest' := by simpa using heq
            obtain ⟨hc0, hrest'⟩ := heq2
            subst hc0
            rw [← hrest'] at hdw' hw'
            rcases hy : rest.dropWhile isWordChar with _ | ⟨y1, ys⟩
            · have hall : (rest ++ ['/']).dropWhile isWordChar = ['/'] := by
                rw [dropWhile_append_all (dropWhile_eq_nil_all hy)]
                rfl
              rw [hall] at hdw'
              simp at hdw'
            · have hstop : rest.dropWhile isWordChar ≠ [] := by rw [hy]; simp
              have hd2 : (rest ++ ['/']).dropWhile isWordChar = y1 :: (ys ++ ['/']) := by
                rw [dropWhile_append_stop hstop, hy]
                rfl
              rw [hd2] at hdw'
              obtain ⟨hy1, hys⟩ := List.cons.inj hdw'
              rcases ys with _ | ⟨y2, ys2⟩
              · simp at hys
              obtain ⟨hy2, hys2⟩ := List.cons.inj (by simpa using hys)
              rcases ys2 with _ | ⟨y3, ys3⟩
              · simp at hys2
              obtain ⟨hy3, hys3⟩ := List.cons.inj (by simpa using hys2)
              rcases ys3 with _ | ⟨y4, ys4⟩
              · simp at hys3
              obtain ⟨hy4, hys4⟩ := List.cons.inj (by simpa using hys3)
              subst hy1 hy2 hy3 hy4
              rw [← hys4] at hcls'
              have htw : rest.takeWhile isWordChar ≠ [] := by
                intro hnil
                exact hw' (takeWhile_append_slash_nil (by decide) hnil)
              have htia : ys4.takeWhile isIAChar ≠ [] := by
                intro hnil
                exact hcls' (takeWhile_append_slash_nil (by decide) hnil)
              have hsucc : matchPatIA ('/' :: rest) =
                  some ('/' :: (rest.takeWhile isWordChar ++
                    '/' :: 'i' :: 'a' :: ':' :: ys4.takeWhile isIAChar),
                    ys4.dropWhile isIAChar) := by
                unfold matchPatIA
                simp only [hy]
                rw [if_neg htw, if_neg htia]
              rw [hsucc] at h
              exact Option.noConfusion h
    next h1 h2 => exact absurd hm (by simp)
  next h1 h2 => exact absurd hm (by simp)

theorem takeWhile_length_le (q : Char → Bool) (l : Str) :
    (l.takeWhile q).length ≤ l.length := by
  conv_rhs => rw [← List.takeWhile_append_dropWhile q l]
  rw [List.length_append]
  omega

theorem le_takeWhile_length {q : Char → Bool} :
    ∀ {l : Str} {j : Nat}, j ≤ l.length → (∀ x ∈ l.take j, q x = true) →
      j ≤ (l.takeWhile q).length := by
  intro l
  induction l with
  | nil => intro j hj _; simpa using hj
  | cons c cs ih =>
    intro j hj hall
    cases j with
    | zero => omega
    | succ k =>
      have hc : q c = true := hall c (by simp [List.take])
      rw [List.takeWhile_cons, if_pos hc]
      have hk := @ih k (by simpa using hj) (fun x hx => hall x (by simp [List.take, hx]))
      simpa using hk

theorem parseOLL_nil : parseOLL [] = none := rfl

theorem parseOLL_shift_some {x c : Str} (h : parseOLL x = some (c, [])) :
    parseOLL (x ++ ['/']) = some (c, ['/']) := by
  unfold parseOLL at h
  split at h
  next w =>
    split at h
    next r3 hdd =>
      split at h
      next => exact absurd h (by simp)
      next hds =>
        simp only [Option.some.injEq, Prod.mk.injEq] at h
        obtain ⟨hc, hr3⟩ := h
        have hdd_ne : w.dropWhile Char.isDigit ≠ [] := by rw [hdd]; simp
        have htd : (w ++ ['/']).takeWhile Char.isDigit = w.takeWhile Char.isDigit :=
          takeWhile_append_stop hdd_ne
        have hdd2 : (w ++ ['/']).dropWhile Char.isDigit = 'L' :: (r3 ++ ['/']) := by
          rw [dropWhile_append_stop hdd_ne, hdd]
          rfl
        unfold parseOLL
        simp only [List.cons_append, hdd2, htd]
        rw [if_neg hds, ← hc]
        subst hr3
        rfl
    next => exact absurd h (by simp)
  next h1 => exact absurd h (by simp)

theorem parseOLL_shift_none {x : Str} (h : parseOLL x = none) :
    parseOLL (x ++ ['/']) = none := by
  rcases hm : parseOLL (x ++ ['/']) with _ | ⟨c, r⟩
  · rfl
  exfalso
  unfold parseOLL at hm
  split at hm
  next r' heq =>
    rcases x with _ | ⟨x1, xs⟩
    · simp at heq
    rcases xs with _ | ⟨x2, xs2⟩
    · simp at heq
    rcases xs2 with _ | ⟨x3, xs3⟩
    · simp at heq
    have heq2 : x1 = '/' ∧ x2 = 'O' ∧ x3 = 'L' ∧ xs3 ++ ['/'] = r' := by
      simpa using heq
    obtain ⟨hx1, hx2, hx3, hr'⟩ := heq2
    subst hx1 hx2 hx3
    rw [← hr'] at hm
    split at hm
    next r3' hdd' =>
      split at hm
      next => exact absurd hm (by simp)
      next hds' =>
        rcases hz : xs3.dropWhile Char.isDigit with _ | ⟨z1, zs⟩
        · have hallz : (xs3 ++ ['/']).dropWhile Char.isDigit = ['/'] := by
            rw [dropWhile_append_all (dropWhile_eq_nil_all hz)]
            rfl
          rw [hallz] at hdd'
          obtain ⟨hL, _⟩ := List.cons.inj hdd'
          exact absurd hL (by decide)
        · have hstopz : xs3.dropWhile Char.isDigit ≠ [] := by rw [hz]; simp
          have hz2 : (xs3 ++ ['/']).dropWhile Char.isDigit = z1 :: (zs ++ ['/']) := by
            rw [dropWhile_append_stop hstopz, hz]
            rfl
          rw [hz2] at hdd'
          obtain ⟨hz1, _⟩ := List.cons.inj hdd'
          have htds : xs3.takeWhile Char.isDigit ≠ [] := by
            intro hnil
            exact hds' (takeWhile_append_slash_nil (by decide) hnil)
          subst hz1
          have hsucc : parseOLL ('/' :: 'O' :: 'L' :: xs3) =
              some ('/' :: 'O' :: 'L' :: (xs3.takeWhile Char.isDigit ++ ['L']), zs) := by
            unfold parseOLL
            simp only [hz]
            rw [if_neg htds]
          rw [hsucc] at h
          exact Option.noConfusion h
    next => exact absurd hm (by simp)
  next h1 => exact absurd hm (by simp)

theorem parseOLL_unshift {x : Str} {pr : Str × Str}
    (hm : parseOLL (x ++ ['/']) = some pr) : parseOLL x ≠ none := by
  intro h
  rw [parseOLL_shift_none h] at hm
  exact Option.noConfusion hm

theorem parseOLL_chars {x c r : Str} (h : parseOLL x = some (c, r)) :
    ∀ ch ∈ c, isListChar ch = true := by
  unfold parseOLL at h
  split at h
  next w =>
    split at h
    next r3 hdd =>
      split at h
      next => exact absurd h (by simp)
      next hds =>
        simp only [Option.some.injEq, Prod.mk.injEq] at h
        obtain ⟨hc, _⟩ := h
        rw [← hc]
        intro ch hch
        simp only [List.mem_cons, List.mem_append, List.mem_singleton,
          List.not_mem_nil, or_false] at hch
        rcases hch with h1 | h1 | h1 | h1 | h1
        · rw [h1]; decide
        · rw [h1]; decide
        · rw [h1]; decide
        · have hd : ch.isDigit = true := List.mem_takeWhile_imp h1
          simp [isListChar, isWordChar, Char.isAlphanum, hd]
        · rw [h1]; decide
    next => exact absurd h (by simp)
  next h1 => exact absurd h (by simp)

theorem searchOLL_none_inv {rest : Str} {n : Nat} (h : searchOLL rest n = none) :
    ∀ i, 1 ≤ i → i ≤ n → parseOLL (rest.drop i) = none := by
  induction n with
  | zero => intro i h1 h2; omega
  | succ m ih =>
    intro i h1 h2
    unfold searchOLL at h
    split at h
    next pr hp => exact Option.noConfusion h
    next hp =>
      rcases Nat.lt_or_ge i (m + 1) with hlt | hge
      · exact ih h i h1 (by omega)
      · have : i = m + 1 := by omega
        subst this
        exact hp

theorem takeWhile_all {q : Char → Bool} {l : Str} (h : ∀ x ∈ l, q x = true) :
    l.takeWhile q = l := by
  induction l with
  | nil => rfl
  | cons c cs ih =>
    rw [List.takeWhile_cons, if_pos (h c (by simp))]
    rw [ih fun x hx => h x (by simp [hx])]

theorem matchPat5_shift_some {p pre : Str} (h : matchPat5 p = some (pre, [])) :
    matchPat5 (p ++ ['/']) = some (pre, ['/']) := by
  unfold matchPat5 at h
  split at h
  next rest =>
    split at h
    next r hs =>
      simp only [Option.some.injEq, Prod.mk.injEq] at h
      obtain ⟨hpre, hrem⟩ := h
      have hs2 : searchOLL rest (rest.takeWhile isListChar).length = some (r.1, r.2.1, r.2.2) := by
        rw [hs]
      obtain ⟨j, hj1, hjn, hrun, hpar, hfail⟩ := searchOLL_inv hs2
      rw [hrem] at hpar
      -- every character of rest is in the class
      have hmaxle : (rest.takeWhile isListChar).length ≤ rest.length :=
        takeWhile_length_le isListChar rest
      have hdrop : rest.drop j = r.2.1 := by
        have := parseOLL_eq hpar
        rw [List.append_nil] at this
        exact this
      have hrestall : ∀ x ∈ rest, isListChar x = true := by
        intro x hx
        rw [← List.take_append_drop j rest] at hx
        rcases List.mem_append.mp hx with hx1 | hx2
        · have hjtw : rest.take j = (rest.takeWhile isListChar).take j := by
            conv_lhs => rw [← List.takeWhile_append_dropWhile isListChar rest]
            rw [List.take_append_of_le_length hjn]
          rw [hjtw] at hx1
          exact List.mem_takeWhile_imp (List.mem_of_mem_take hx1)
        · rw [hdrop] at hx2
          exact parseOLL_chars hpar x hx2
      have hjlen : j ≤ rest.length := le_trans hjn hmaxle
      have htwall : (rest ++ ['/']).takeWhile isListChar = rest ++ ['/'] := by
        rw [takeWhile_append_all hrestall]
        rfl
      have hp2 : parseOLL ((rest ++ ['/']).drop j) = some (r.2.1, ['/']) := by
        rw [List.drop_append_of_le_length hjlen]
        exact parseOLL_shift_some hpar
      have hfail2 : ∀ i, j < i → i ≤ rest.length + 1 →
          parseOLL ((rest ++ ['/']).drop i) = none := by
        intro i hi1 hi2
        rcases Nat.lt_or_ge i (rest.length + 1) with hlt | hge
        · have hile : i ≤ rest.length := by omega
          rw [List.drop_append_of_le_length hile]
          exact parseOLL_shift_none (hfail i hi1 (by
            rw [takeWhile_all hrestall]
            exact hile))
        · have hieq : i = rest.length + 1 := by omega
          subst hieq
          have hlen : (rest ++ ['/']).length = rest.length + 1 := by simp
          rw [show rest.length + 1 = (rest ++ ['/']).length from hlen.symm, List.drop_length]
          exact parseOLL_nil
      have hfound := @searchOLL_found (rest ++ ['/']) (rest.length + 1) j (r.2.1, ['/'])
        hj1 (by omega) hp2 hfail2
      unfold matchPat5
      simp only [List.cons_append, htwall]
      have hlen2 : (rest ++ ['/']).length = rest.length + 1 := by simp
      rw [hlen2, hfound]
      rw [List.take_append_of_le_length hjlen, ← hrun, ← hpre]
    next h1 => exact absurd h (by simp)
  next h1 h2 => exact absurd h (by simp)

theorem matchPat5_shift_none {p : Str} (h : matchPat5 p = none) :
    matchPat5 (p ++ ['/']) = none := by
  rcases hm : matchPat5 (p ++ ['/']) with _ | ⟨a, b⟩
  · rfl
  exfalso
  unfold matchPat5 at hm
  split at hm
  next rest' heq =>
    split at hm
    next r hs =>
      cases p with
      | nil =>
        have hrest' : rest' = [] := by simpa using heq
        subst hrest'
        simp [searchOLL] at hs
      | cons c0 rest =>
        have heq2 : c0 = '/' ∧ rest ++ ['/'] = rest' := by simpa using heq
        obtain ⟨hc0, hrest'⟩ := heq2
        subst hc0
        rw [← hrest'] at hs
        have hns : searchOLL rest (rest.takeWhile isListChar).length = none := by
          rcases hso : searchOLL rest (rest.takeWhile isListChar).length with _ | r0
          · rfl
          · exfalso
            have hsucc : matchPat5 ('/' :: rest) = some ('/' :: (r0.1 ++ r0.2.1), r0.2.2) := by
              unfold matchPat5
              simp only [hso]
            rw [hsucc] at h
            exact Option.noConfusion h
        have hs2 : searchOLL (rest ++ ['/'])
            ((rest ++ ['/']).takeWhile isListChar).length = some (r.1, r.2.1, r.2.2) := by
          rw [hs]
        obtain ⟨j, hj1, hjn, hrun, hpar, hfail⟩ := searchOLL_inv hs2
        have hmaxle : ((rest ++ ['/']).takeWhile isListChar).length ≤ rest.length + 1 := by
          have hle := takeWhile_length_le isListChar (rest ++ ['/'])
          simpa using hle
        rcases Nat.lt_or_ge j (rest.length + 1) with hjlt | hjge
        · have hjle : j ≤ rest.length := by omega
          rw [List.drop_append_of_le_length hjle] at hpar
          have hne := parseOLL_unshift hpar
          rcases hup : parseOLL (rest.drop j) with _ | pr0
          · exact hne hup
          · have hjmax : j ≤ (rest.takeWhile isListChar).length := by
              apply le_takeWhile_length hjle
              intro x hx
              have hx2 : x ∈ (rest ++ ['/']).take j := by
                rw [List.take_append_of_le_length hjle]
                exact hx
              have hjtw : (rest ++ ['/']).take j =
                  ((rest ++ ['/']).takeWhile isListChar).take j := by
                conv_lhs => rw [← List.takeWhile_append_dropWhile isListChar (rest ++ ['/'])]
                rw [List.take_append_of_le_length hjn]
              rw [hjtw] at hx2
              exact List.mem_takeWhile_imp (List.mem_of_mem_take hx2)
            have hcontra := searchOLL_none_inv hns j hj1 hjmax
            rw [hcontra] at hup
            exact Option.noConfusion hup
        · have hjeq : j = rest.length + 1 := by omega
          subst hjeq
          have hlen : (rest ++ ['/']).length = rest.length + 1 := by simp
          rw [show rest.length + 1 = (rest ++ ['/']).length from hlen.symm,
            List.drop_length] at hpar
          rw [parseOLL_nil] at hpar
          exact Option.noConfusion hpar
    next hs => exact absurd hm (by simp)
  next h1 h2 => exact absurd hm (by simp)

theorem not_suffix_slash {l : Str} (hne : l ≠ []) (hl : l.getLast? ≠ some '/') (p : Str) :
    l.isSuffixOf (p ++ ['/']) = false := by
  rw [Bool.eq_false_iff]
  intro hsf
  obtain ⟨c, hc⟩ := List.isSuffixOf_iff_suffix.mp hsf
  have h1 : (c ++ l).getLast? = l.getLast? := getLast?_append_right hne
  rw [hc, getLast?_append_right (by simp)] at h1
  exact hl h1.symm

theorem endsWithExt_slash (p : Str) : endsWithExt (p ++ ['/']) = false := by
  unfold endsWithExt
  rw [@not_suffix_slash (lit ".json") (by decide) (by decide) p,
    @not_suffix_slash (lit ".rdf") (by decide) (by decide) p,
    @not_suffix_slash (lit ".yml") (by decide) (by decide) p]
  rfl

theorem matchPath_shift {p : Str} {r : MatchResult} (h : matchPath p = some r)
    (hwhole : r.pre = p) : matchPath (p ++ ['/']) = some r := by
  unfold matchPath at h ⊢
  split at h
  next m hm =>
    injection h with h'
    have hpre : m.1 = p := by
      rw [← h'] at hwhole
      simpa [mkResult] using hwhole
    have hp : p = m.1 ++ m.2 := matchPatOLID_eq hm
    have hm2 : m.2 = [] := by
      rw [hpre] at hp
      have := congrArg List.length hp
      simp at this
      exact this
    have hm' : matchPatOLID 'M' p = some (m.1, []) := by rw [hm, ← hm2]
    rw [matchPatOLID_shift_some hm']
    rw [← h']
    simp [mkResult, split2, splitFirst, hm2]
  next hn1 =>
  split at h
  next m hm =>
    injection h with h'
    have hpre : m.1 = p := by
      rw [← h'] at hwhole
      simpa [mkResult] using hwhole
    have hp : p = m.1 ++ m.2 := matchPatIA_eq hm
    have hm2 : m.2 = [] := by
      rw [hpre] at hp
      have := congrArg List.length hp
      simp at this
      exact this
    have hm' : matchPatIA p = some (m.1, []) := by rw [hm, ← hm2]
    rw [matchPatOLID_shift_none (by decide) hn1, matchPatIA_shift_some hm']
    rw [← h']
    simp [mkResult, split2, splitFirst, hm2]
  next hn2 =>
  split at h
  next m hm =>
    injection h with h'
    have hpre : m.1 = p := by
      rw [← h'] at hwhole
      simpa [mkResult] using hwhole
    have hp : p = m.1 ++ m.2 := matchPatOLID_eq hm
    have hm2 : m.2 = [] := by
      rw [hpre] at hp
      have := congrArg List.length hp
      simp at this
      exact this
    have hm' : matchPatOLID 'A' p = some (m.1, []) := by rw [hm, ← hm2]
    rw [matchPatOLID_shift_none (by decide) hn1, matchPatIA_shift_none hn2,
      matchPatOLID_shift_some hm']
    rw [← h']
    simp [mkResult, split2, splitFirst, hm2]
  next hn3 =>
  split at h
  next m hm =>
    injection h with h'
    have hpre : m.1 = p := by
      rw [← h'] at hwhole
      simpa [mkResult] using hwhole
    have hp : p = m.1 ++ m.2 := matchPatOLID_eq hm
    have hm2 : m.2 = [] := by
      rw [hpre] at hp
      have := congrArg List.length hp
      simp at this
      exact this
    have hm' : matchPatOLID 'W' p = some (m.1, []) := by rw [hm, ← hm2]
    rw [matchPatOLID_shift_none (by decide) hn1, matchPatIA_shift_none hn2,
      matchPatOLID_shift_none (by decide) hn3, matchPatOLID_shift_some hm']
    rw [← h']
    simp [mkResult, split2, splitFirst, hm2]
  next hn4 =>
  split at h
  next m hm =>
    injection h with h'
    have hpre : m.1 = p := by
      rw [← h'] at hwhole
      simpa [mkResult] using hwhole
    have hp : p = m.1 ++ m.2 := matchPat5_eq hm
    have hm2 : m.2 = [] := by
      rw [hpre] at hp
      have := congrArg List.length hp
      simp at this
      exact this
    have hm' : matchPat5 p = some (m.1, []) := by rw [hm, ← hm2]
    rw [matchPatOLID_shift_none (by decide) hn1, matchPatIA_shift_none hn2,
      matchPatOLID_shift_none (by decide) hn3, matchPatOLID_shift_none (by decide) hn4,
      matchPat5_shift_some hm']
    rw [← h']
    simp [mkResult, split2, splitFirst, hm2]
  next hn5 => exact Option.noConfusion h

def tC8 : Thing := ⟨lit "/books/OL9M", lit "/type/edition", [(lit "title", lit "T")]⟩

def siteC8 : Site := ⟨[(lit "/books/ia:x", tC8)]⟩

/-- C8 counterexample: `/books/ia:x.json` is wholly matched by the
`ia:`-edition rule, yet its resolution takes the structured-data branch
(strip `.json`, look up `/books/ia:x`, emit the aliased key
`/books/OL9M.json`), while the trailing-slash variant no longer ends in
`.json`, takes the slug branch, finds nothing under `/books/ia:x.json`, and
comes back unchanged — so the two resolutions differ. -/
theorem claim_C8_counterexample :
    getReadablePath siteC8 exclWit (lit "/books/ia:x.json" ++ ['/']) none ≠
      getReadablePath siteC8 exclWit (lit "/books/ia:x.json") none := by decide

/-- C8 (amended): for every path wholly consumed by its matching rule that
does not end in `.json`, `.rdf` or `.yml`, and with no encoding override,
resolving the path with a single trailing slash gives exactly the same pair
as resolving it without: the slash-extended path matches the same rule with
the same prefix, empty middle and suffix, and both resolutions proceed
identically from there. -/
theorem claim_C8_trailing {site : Site} {excl : Option Thing → Bool} {p : Str}
    {r : MatchResult} (hm : matchPath p = some r) (hwhole : r.pre = p)
    (hx : endsWithExt p = false) :
    getReadablePath site excl (p ++ ['/']) none = getReadablePath site excl p none := by
  have hm2 := matchPath_shift hm hwhole
  have hx2 : endsWithExt (p ++ ['/']) = false := endsWithExt_slash p
  rcases hobj : getObject site r.pre with _ | t
  · rw [grp_slug_none hm2 hx2 hobj, grp_slug_none hm hx hobj]
  · rw [@grp_slug_found site excl _ r t hm2 hx2 hobj,
      @grp_slug_found site excl _ r t hm hx hobj]

theorem claim_C8_trailing_w :
    getReadablePath siteWit exclWit (lit "/books/OL1M" ++ ['/']) none =
      getReadablePath siteWit exclWit (lit "/books/OL1M") none :=
  @claim_C8_trailing siteWit exclWit (lit "/books/OL1M") rWit
    (by decide) (by decide) (by decide)
